import Mathlib

/-!
Verification of the `SelectumPropertyParser` scraper
(`src/parsers/selectumproperty.py`).

The embedding models Python's JSON values as the inductive type `Json`
(numbers restricted to integers: the payloads and claims under study never
involve floats), Python strings as `List Char` (sequences of Unicode code
points), and Python dicts as ordered association lists with the in-place
update semantics of CPython dicts.  Python code that can raise an exception
is modelled with `Option`: `none` is an exception escaping to the caller.

The source methods modelled here:
  * `extract_realestates` (lines 35-58): marker search, brace-depth scan,
    `json.loads`, `dict.get` fallback;
  * `decode_text` (lines 60-66): latin-1 re-encode / UTF-8 re-decode repair;
  * `format_estate` (lines 68-88): text-field re-decoding, image-URL
    derivation, types flattening;
  * `get_all_realestates` (lines 99-109): bounded sequential pagination.

`json.loads` and `json.dumps` are Python standard library collaborators,
modelled by `json_loads` (strict recursive-descent JSON reader: rejects
control characters in strings, lone `\uXXXX` surrogates and leading zeros,
builds dicts with last-write-wins key insertion) and `serializeJson`
(compact serialization with `"`/`\`/control-character escaping).  The model
of `json_loads` covers integer numerals only.
-/

namespace SelectumProperty

/-- Model of a Python/JSON value.  Numbers are restricted to integers. -/
inductive Json where
  | null : Json
  | bool (b : Bool) : Json
  | num (n : Int) : Json
  | str (s : List Char) : Json
  | arr (xs : List Json) : Json
  | obj (kvs : List (List Char × Json)) : Json

/-- First-match lookup in an association list, the model of reading a key
from a Python dict (dicts never hold duplicate keys, so first match is the
only match). -/
def dictGet : List (List Char × Json) → List Char → Option Json
  | [], _ => none
  | (k, v) :: t, key => if k = key then some v else dictGet t key

/-- Model of the CPython dict assignment `d[k] = v`: replace the value at
an existing key, keeping its position, else append the pair at the end. -/
def objInsert : List (List Char × Json) → List Char → Json → List (List Char × Json)
  | [], k, v => [(k, v)]
  | (k', v') :: t, k, v =>
    if k' = k then (k', v) :: t else (k', v') :: objInsert t k v

/-- Python truthiness on JSON values: `None`, `False`, `0`, `""`, `[]` and
an empty dict are falsy, everything else is truthy. -/
def truthy : Json → Bool
  | .null => false
  | .bool b => b
  | .num n => if n = 0 then false else true
  | .str s => !s.isEmpty
  | .arr xs => !xs.isEmpty
  | .obj kvs => !kvs.isEmpty

/-- Whether a value is a Python list. -/
def isArrJ : Json → Bool
  | .arr _ => true
  | _ => false

/-! ### Character helpers -/

/-- JSON whitespace characters (space, tab, line feed, carriage return). -/
def isWsChar (c : Char) : Bool :=
  c = ' ' || c = '\t' || c = '\n' || c = '\r'

/-- Drop leading JSON whitespace. -/
def skipWs : List Char → List Char
  | [] => []
  | c :: r => if isWsChar c then skipWs r else c :: r

/-- Decimal digit test. -/
def isDigitCh (c : Char) : Bool :=
  48 ≤ c.toNat && c.toNat ≤ 57

/-- Value of a decimal digit character. -/
def digitVal (c : Char) : Nat := c.toNat - 48

/-- Decimal digit character of a value below ten. -/
def digitChar (n : Nat) : Char := Char.ofNat (48 + n)

/-- Lowercase hexadecimal digit character of a value below sixteen. -/
def hexDig (n : Nat) : Char :=
  Char.ofNat (if n < 10 then 48 + n else 87 + n)

/-- Value of a hexadecimal digit character (either case), if any. -/
def hexVal (c : Char) : Option Nat :=
  if 48 ≤ c.toNat ∧ c.toNat ≤ 57 then some (c.toNat - 48)
  else if 97 ≤ c.toNat ∧ c.toNat ≤ 102 then some (c.toNat - 87)
  else if 65 ≤ c.toNat ∧ c.toNat ≤ 70 then some (c.toNat - 55)
  else none

/-! ### Decimal printing (model of Python's `repr` for `int`) -/

/-- Accumulator loop producing the decimal digits of `n` in front of
`acc`; `fuel` only bounds the recursion and any `fuel > n` is enough. -/
def natDigitsAux : Nat → Nat → List Char → List Char
  | 0, _, acc => acc
  | f + 1, n, acc =>
    if n < 10 then digitChar n :: acc
    else natDigitsAux f (n / 10) (digitChar (n % 10) :: acc)

/-- Decimal digit string of a natural number. -/
def natDigits (n : Nat) : List Char := natDigitsAux (n + 1) n []

/-- Decimal representation of an integer, as `json.dumps` prints it. -/
def serInt : Int → List Char
  | .ofNat n => natDigits n
  | .negSucc m => '-' :: natDigits (m + 1)

/-! ### Serialization (model of `json.dumps` with compact separators) -/

/-- Escape one character inside a JSON string literal: `"` and `\` get a
backslash escape, control characters become `\u00XX`, anything else is
emitted verbatim. -/
def escChar (c : Char) : List Char :=
  if c = '"' then ['\\', '"']
  else if c = '\\' then ['\\', '\\']
  else if c.toNat < 32 then
    ['\\', 'u', '0', '0', hexDig (c.toNat / 16), hexDig (c.toNat % 16)]
  else [c]

/-- Escaped body of a JSON string literal. -/
def escBody : List Char → List Char
  | [] => []
  | c :: r => escChar c ++ escBody r

/-- Serialized JSON string literal, quotes included. -/
def serStr (s : List Char) : List Char := '"' :: escBody s ++ ['"']

mutual

/-- Compact JSON serialization of a value. -/
def serializeJson : Json → List Char
  | .null => "null".data
  | .bool true => "true".data
  | .bool false => "false".data
  | .num i => serInt i
  | .str s => serStr s
  | .arr xs => '[' :: serItems xs ++ [']']
  | .obj kvs => '{' :: serMembers kvs ++ ['}']

/-- Comma-separated serialization of array items. -/
def serItems : List Json → List Char
  | [] => []
  | [x] => serializeJson x
  | x :: y :: t => serializeJson x ++ ',' :: serItems (y :: t)

/-- Comma-separated serialization of object members. -/
def serMembers : List (List Char × Json) → List Char
  | [] => []
  | [(k, v)] => serStr k ++ ':' :: serializeJson v
  | (k, v) :: m :: t => serStr k ++ ':' :: serializeJson v ++ ',' :: serMembers (m :: t)

end

/-! ### Parsing (model of `json.loads`, CPython's strict decoder) -/

/-- Short backslash escapes accepted inside JSON string literals. -/
def escOf : Char → Option Char
  | '"' => some '"'
  | '\\' => some '\\'
  | '/' => some '/'
  | 'b' => some (Char.ofNat 8)
  | 'f' => some (Char.ofNat 12)
  | 'n' => some '\n'
  | 'r' => some (Char.ofNat 13)
  | 't' => some '\t'
  | _ => none

/-- Body of a JSON string literal after the opening quote: stops at the
closing quote, decodes escapes, rejects raw control characters, invalid
escapes and `\uXXXX` surrogate code units (the model leaves surrogate
pairs out of scope; the escapes `json.dumps` emits never produce them). -/
def pString : List Char → Option (List Char × List Char)
  | [] => none
  | c :: r =>
    if c = '"' then some ([], r)
    else if c = '\\' then
      match r with
      | [] => none
      | e :: r2 =>
        if e = 'u' then
          match r2 with
          | a :: b :: c2 :: d :: r3 =>
            match hexVal a, hexVal b, hexVal c2, hexVal d with
            | some x, some y, some z, some w =>
              let cp := ((x * 16 + y) * 16 + z) * 16 + w
              if 55296 ≤ cp ∧ cp ≤ 57343 then none
              else (pString r3).map (fun p => (Char.ofNat cp :: p.1, p.2))
            | _, _, _, _ => none
          | _ => none
        else
          match escOf e with
          | some ec => (pString r2).map (fun p => (ec :: p.1, p.2))
          | none => none
    else if c.toNat < 32 then none
    else (pString r).map (fun p => (c :: p.1, p.2))

/-- Greedy digit accumulation: `digitLoop s a` folds decimal digits into
`a` until the first non-digit. -/
def digitLoop : List Char → Nat → Nat × List Char
  | [], a => (a, [])
  | c :: r, a =>
    if isDigitCh c then digitLoop r (a * 10 + digitVal c) else (a, c :: r)

/-- JSON unsigned integer numeral: a lone `0`, or a nonzero digit followed
by any digits (leading zeros stop after the `0`, as in the JSON grammar). -/
def pNat : List Char → Option (Nat × List Char)
  | [] => none
  | c :: r =>
    if c = '0' then some (0, r)
    else if isDigitCh c then some (digitLoop (c :: r) 0)
    else none

/-- Whether the next character would extend the numeral into a float
(model limitation: floating-point numerals are out of scope). -/
def floatNext : List Char → Bool
  | [] => false
  | c :: _ => c = '.' || c = 'e' || c = 'E'

/-- The continuation after a serialized numeral is safe: it cannot extend
the numeral with more digits or turn it into a float.  Holds for the
separators (`,`, `]`, `}`) and end of input. -/
def numSafe : List Char → Prop
  | [] => True
  | c :: _ => isDigitCh c = false ∧ c ≠ '.' ∧ c ≠ 'e' ∧ c ≠ 'E'

/-- JSON integer numeral with optional minus sign. -/
def pNumber : List Char → Option (Json × List Char)
  | [] => none
  | c :: r =>
    if c = '-' then
      match pNat r with
      | some (n, rest) =>
        if floatNext rest then none else some (.num (-(n : Int)), rest)
      | none => none
    else
      match pNat (c :: r) with
      | some (n, rest) =>
        if floatNext rest then none else some (.num (n : Int), rest)
      | none => none

mutual

/-- JSON value parser.  `fuel` bounds the recursion depth; the entry point
passes more fuel than the input length, which is always enough since every
recursive call consumes input. -/
def pValue : Nat → List Char → Option (Json × List Char)
  | 0, _ => none
  | f + 1, s =>
    match skipWs s with
    | [] => none
    | c :: r =>
      if c = '{' then
        match skipWs r with
        | [] => none
        | c2 :: r2 => if c2 = '}' then some (.obj [], r2) else pMembers f (c2 :: r2) []
      else if c = '[' then
        match skipWs r with
        | [] => none
        | c2 :: r2 => if c2 = ']' then some (.arr [], r2) else pItems f (c2 :: r2) []
      else if c = '"' then
        (pString r).map (fun p => (.str p.1, p.2))
      else if c = 't' then
        match r with
        | 'r' :: 'u' :: 'e' :: r2 => some (.bool true, r2)
        | _ => none
      else if c = 'f' then
        match r with
        | 'a' :: 'l' :: 's' :: 'e' :: r2 => some (.bool false, r2)
        | _ => none
      else if c = 'n' then
        match r with
        | 'u' :: 'l' :: 'l' :: r2 => some (.null, r2)
        | _ => none
      else pNumber (c :: r)

/-- Object members after the opening brace of a nonempty object, with the
accumulated member list; keys are inserted with `objInsert`, the CPython
dict assignment (duplicate keys: last write wins, first position kept). -/
def pMembers : Nat → List Char → List (List Char × Json) → Option (Json × List Char)
  | 0, _, _ => none
  | f + 1, s, acc =>
    match s with
    | [] => none
    | c :: r =>
      if c = '"' then
        match pString r with
        | none => none
        | some (k, r2) =>
          match skipWs r2 with
          | [] => none
          | c2 :: r3 =>
            if c2 = ':' then
              match pValue f r3 with
              | none => none
              | some (v, r4) =>
                match skipWs r4 with
                | [] => none
                | c4 :: r5 =>
                  if c4 = ',' then pMembers f (skipWs r5) (objInsert acc k v)
                  else if c4 = '}' then some (.obj (objInsert acc k v), r5)
                  else none
            else none
      else none

/-- Array items after the opening bracket of a nonempty array, with the
accumulated item list. -/
def pItems : Nat → List Char → List Json → Option (Json × List Char)
  | 0, _, _ => none
  | f + 1, s, acc =>
    match pValue f s with
    | none => none
    | some (v, r) =>
      match skipWs r with
      | [] => none
      | c :: r2 =>
        if c = ',' then pItems f r2 (acc ++ [v])
        else if c = ']' then some (.arr (acc ++ [v]), r2)
        else none

end

/-- Model of `json.loads`: parse one value, allow surrounding whitespace,
reject trailing input. -/
def json_loads (s : List Char) : Option Json :=
  match pValue (s.length + 1) s with
  | some (v, rest) => if skipWs rest = [] then some v else none
  | none => none

/-! ### The extractor (`extract_realestates`, source lines 35-58) -/

/-- Whether `pat` is an initial segment of `s`. -/
def startsWithList : List Char → List Char → Bool
  | [], _ => true
  | _ :: _, [] => false
  | p :: ps, c :: cs => p = c && startsWithList ps cs

/-- Index of the first occurrence of `pat` in `s`, the model of Python's
`str.find` (with `none` for `-1`). -/
def findSubstr (pat : List Char) : List Char → Option Nat
  | [] => if startsWithList pat [] then some 0 else none
  | c :: cs =>
    if startsWithList pat (c :: cs) then some 0
    else (findSubstr pat cs).map (fun n => n + 1)

/-- Brace-depth scan of source lines 41-48: starting at depth `d` (the
already-seen opening braces), return the index of the character at which
the depth first returns to zero.  Braces inside string literals are not
distinguished from structural braces, exactly as in the source.  `none`
models the for-else branch: the scan exhausted the text. -/
def scanEnd : List Char → Nat → Option Nat
  | [], _ => none
  | c :: cs, d =>
    if c = '{' then (scanEnd cs (d + 1)).map (fun n => n + 1)
    else if c = '}' then
      if d = 1 then some 0 else (scanEnd cs (d - 1)).map (fun n => n + 1)
    else (scanEnd cs d).map (fun n => n + 1)

/-- The marker `"realEstatesData":{` searched for by the extractor
(source line 36), 19 characters. -/
def rdKey : List Char := '"' :: "realEstatesData".data ++ ['"', ':', '{']

/-- The prefix `"realEstatesData":` stripped before the JSON block
(source line 52), 18 characters. -/
def rdPre : List Char := '"' :: "realEstatesData".data ++ ['"', ':']

/-- The key `realEstates` read from the parsed payload (source line 55). -/
def reName : List Char := "realEstates".data

/-- Model of `extract_realestates` (source lines 35-58): find the marker,
brace-scan for the end of the balanced block, slice, `json.loads` it and
return its `realEstates` field with `[]` as default.  Every failure path
(`find` miss, unbalanced scan, parse error, `.get` on a non-dict — the
whole `try` block) returns the empty list; the function is total, no
exception escapes. -/
def extract_realestates (text : List Char) : Json :=
  match findSubstr rdKey text with
  | none => .arr []
  | some start =>
    match scanEnd (text.drop (start + 19)) 1 with
    | none => .arr []
    | some j =>
      match json_loads ((text.drop (start + 18)).take (j + 2)) with
      | some (.obj kvs) => (dictGet kvs reName).getD (.arr [])
      | _ => .arr []

/-! ### Text re-decoding (`decode_text`, source lines 60-66) -/

/-- Model of `str.encode('latin1')`: one byte per code point, failing
(UnicodeEncodeError) on any code point above 255. -/
def latin1Enc : List Char → Option (List Nat)
  | [] => some []
  | c :: r =>
    if c.toNat < 256 then (latin1Enc r).map (fun bs => c.toNat :: bs)
    else none

/-- Model of `bytes.decode('utf-8')`, CPython's strict decoder: rejects
stray continuation bytes, overlong forms, surrogate code points and
anything above U+10FFFF. -/
def utf8Dec : List Nat → Option (List Char)
  | [] => some []
  | b :: r =>
    if b < 128 then (utf8Dec r).map (fun t => Char.ofNat b :: t)
    else if b < 194 then none
    else if b < 224 then
      match r with
      | b1 :: r2 =>
        if 128 ≤ b1 ∧ b1 < 192 then
          (utf8Dec r2).map (fun t => Char.ofNat ((b - 192) * 64 + (b1 - 128)) :: t)
        else none
      | [] => none
    else if b < 240 then
      match r with
      | b1 :: b2 :: r2 =>
        if (if b = 224 then 160 else 128) ≤ b1 ∧ b1 < (if b = 237 then 160 else 192) ∧
            128 ≤ b2 ∧ b2 < 192 then
          (utf8Dec r2).map
            (fun t => Char.ofNat (((b - 224) * 64 + (b1 - 128)) * 64 + (b2 - 128)) :: t)
        else none
      | _ => none
    else if b < 245 then
      match r with
      | b1 :: b2 :: b3 :: r2 =>
        if (if b = 240 then 144 else 128) ≤ b1 ∧ b1 < (if b = 244 then 144 else 192) ∧
            128 ≤ b2 ∧ b2 < 192 ∧ 128 ≤ b3 ∧ b3 < 192 then
          (utf8Dec r2).map
            (fun t =>
              Char.ofNat ((((b - 240) * 64 + (b1 - 128)) * 64 + (b2 - 128)) * 64 + (b3 - 128)) :: t)
        else none
      | _ => none
    else none

/-- The string repair of `decode_text` (source lines 63-66): reinterpret
the code points as single bytes and decode them as UTF-8; on any failure
keep the original text. -/
def decode_str (s : List Char) : List Char :=
  match latin1Enc s with
  | none => s
  | some bs =>
    match utf8Dec bs with
    | none => s
    | some t => t

/-- Model of `decode_text` (source lines 60-66) on an arbitrary value:
falsy values return the empty string (line 61-62), truthy strings get the
latin-1/UTF-8 repair, and on any other truthy value `.encode` raises
AttributeError, which the bare `except` catches, returning the value
unchanged. -/
def decode_text (v : Json) : Json :=
  if truthy v then
    match v with
    | .str s => .str (decode_str s)
    | other => other
  else .str []

/-! ### The normalizer (`format_estate`, source lines 68-88) -/

/-- The four text fields re-decoded by `format_estate` (source line 71). -/
def textKeys : List (List Char) :=
  ["title".data, "location".data, "area".data, "houseType".data]

/-- Keys used by the normalizer. -/
def imagesKey : List Char := "images".data

/-- Output key holding the derived image URLs. -/
def imageUrlsKey : List Char := "image_urls".data

/-- Key of the per-image file name. -/
def fileNameKey : List Char := "file_name".data

/-- Key of the types list and of the flattened types string. -/
def typesKey : List Char := "types".data

/-- Key of a type entry's name. -/
def nameKey : List Char := "name".data

/-- The constant URL prefix `BASE_IMAGE_URL` (source line 21). -/
def baseImageUrl : List Char :=
  "https://selectumproperty.com/_next/image?url=https%3A%2F%2Fselectumproperty.com%2Fapi%2Ffiles%2Fproperty-images%2F".data

/-- The fixed query suffix appended to each image URL (source line 76). -/
def urlSuffix : List Char := "&w=2048&q=75".data

/-- One step of the text-field loop (source lines 70-73): if the key is
present with a non-`None` value, overwrite it with `decode_text` of it. -/
def decodeStep (acc : List (List Char × Json)) (k : List Char) : List (List Char × Json) :=
  match dictGet acc k with
  | some .null => acc
  | some v => objInsert acc k (decode_text v)
  | none => acc

/-- The text-field loop of `format_estate` over the four text keys. -/
def decodePass (r : List (List Char × Json)) : List (List Char × Json) :=
  textKeys.foldl decodeStep r

/-- Contribution of one entry of the `images` list (source lines 75-78):
`none` models an exception (`.get` on a non-dict, or `+` on a truthy
non-string file name), `some none` a skipped entry, `some (some u)` a
produced URL. -/
def imageEntryUrl (e : Json) : Option (Option Json) :=
  match e with
  | .obj o =>
    match dictGet o fileNameKey with
    | none => some none
    | some fv =>
      if truthy fv then
        match fv with
        | .str s => some (some (.str (baseImageUrl ++ s ++ urlSuffix)))
        | _ => none
      else some none
  | _ => none

/-- The image comprehension over a list of entries. -/
def imagesLoop : List Json → Option (List Json)
  | [] => some []
  | e :: t =>
    match imageEntryUrl e with
    | none => none
    | some none => imagesLoop t
    | some (some u) => (imagesLoop t).map (fun us => u :: us)

/-- The image comprehension (source lines 75-78) over the value of the
`images` field: a list is iterated entry-wise; an empty string or empty
dict iterates to nothing; iterating any other value raises (TypeError for
non-iterables, AttributeError for `.get` on characters or dict keys). -/
def imagesComp : Json → Option (List Json)
  | .arr l => imagesLoop l
  | .str s => if s.isEmpty then some [] else none
  | .obj o => if o.isEmpty then some [] else none
  | _ => none

/-- Contribution of one entry of the `types` list (source lines 83-85):
`none` models an exception (`.get` on a non-dict, or `', '.join` on the
truthy non-string that `decode_text` passed through), `some none` a
filtered-out entry, `some (some s)` a decoded name. -/
def typeEntryName (t : Json) : Option (Option (List Char)) :=
  match t with
  | .obj o =>
    match dictGet o nameKey with
    | none => some none
    | some nv =>
      if truthy nv then
        match nv with
        | .str s => some (some (decode_str s))
        | _ => none
      else some none
  | _ => none

/-- The generator feeding `', '.join` over the entries of a types list. -/
def typesLoop : List Json → Option (List (List Char))
  | [] => some []
  | t :: r =>
    match typeEntryName t with
    | none => none
    | some none => typesLoop r
    | some (some s) => (typesLoop r).map (fun ss => s :: ss)

/-- Model of `', '.join`. -/
def joinCommaSpace : List (List Char) → List Char
  | [] => []
  | [s] => s
  | s :: t :: r => s ++ ',' :: ' ' :: joinCommaSpace (t :: r)

/-- The types flattening (source lines 80-87) on the value of the `types`
field: only a truthy list enters the join; anything else (absent, falsy,
or truthy non-list) yields the empty string. -/
def typesComp : Option Json → Option (List Char)
  | none => some []
  | some v =>
    if truthy v then
      match v with
      | .arr l => (typesLoop l).map joinCommaSpace
      | _ => some []
    else some []

/-- Model of `format_estate` (source lines 68-88): copy the record, re-decode
the four text fields, derive `image_urls`, flatten `types`.  `none` models
an exception escaping (malformed `images` or `types` shapes). -/
def format_estate (estate : List (List Char × Json)) : Option (List (List Char × Json)) :=
  match
    match dictGet (decodePass estate) imagesKey with
    | none => some []
    | some v => imagesComp v
  with
  | none => none
  | some urls =>
    match
      typesComp (dictGet (objInsert (decodePass estate) imageUrlsKey (.arr urls)) typesKey)
    with
    | none => none
    | some s =>
      some (objInsert (objInsert (decodePass estate) imageUrlsKey (.arr urls)) typesKey (.str s))

/-! ### Pagination (`get_all_realestates`, source lines 99-109) -/

/-- Model of Python's `range(a, b)` over integers. -/
def intRange (a b : Int) : List Int :=
  (List.range (b - a).toNat).map (fun (k : Nat) => a + (k : Int))

/-- The page loop (source lines 101-106): walk the page numbers, fetch
each, stop at the first empty page.  Returns the accumulated records, the
list of pages actually fetched, and the last values bound to the loop
variables `page`/`estates` (`none` when the body never ran). -/
def runPagesAux (fetch : Int → List Json) :
    List Int → List Json → List Int → Option (Int × List Json) →
    List Json × List Int × Option (Int × List Json)
  | [], acc, tr, last => (acc, tr, last)
  | p :: ps, acc, tr, _ =>
    let estates := fetch p
    if estates.isEmpty then (acc, tr ++ [p], some (p, estates))
    else runPagesAux fetch ps (acc ++ estates) (tr ++ [p]) (some (p, estates))

/-- The loop of `get_all_realestates` run on `range(1, max_pages + 1)`,
with `fetch` standing for `get_realestates_page` (one page's normalized
records). -/
def runAll (fetch : Int → List Json) (max_pages : Int) :
    List Json × List Int × Option (Int × List Json) :=
  runPagesAux fetch (intRange 1 (max_pages + 1)) [] [] none

/-- Model of `get_all_realestates` (source lines 99-109).  After the loop,
line 107 reads the loop variables `page` and `estates`; when the loop body
never ran they are unbound and the f-string raises NameError, modelled by
`none`. -/
def get_all_realestates (fetch : Int → List Json) (max_pages : Int) : Option (List Json) :=
  match (runAll fetch max_pages).2.2 with
  | none => none
  | some _ => some (runAll fetch max_pages).1

/-- The pages for which a fetch was performed, in order. -/
def pagesFetched (fetch : Int → List Json) (max_pages : Int) : List Int :=
  (runAll fetch max_pages).2.1

/-! ### Well-formedness predicates -/

/-- No brace character occurs in the string: the payload assumption under
which the extractor's string-blind brace scan is correct. -/
def braceFreeS (s : List Char) : Bool :=
  s.all (fun c => !(c = '{' || c = '}'))

/-- Well-formed payload value: object keys are duplicate-free (as for any
value produced by a Python dict) and no string key or value contains a
brace character (the spec's stated payload-format assumption). -/
def wfJ : Json → Prop
  | .null => True
  | .bool _ => True
  | .num _ => True
  | .str s => braceFreeS s = true
  | .arr xs => ∀ x ∈ xs, wfJ x
  | .obj kvs =>
      (kvs.map Prod.fst).Nodup ∧ ∀ kv ∈ kvs, braceFreeS kv.1 = true ∧ wfJ kv.2
decreasing_by
  · have h1 := List.sizeOf_lt_of_mem (show x ∈ xs by assumption)
    simp only [Json.arr.sizeOf_spec]; omega
  · have h1 := List.sizeOf_lt_of_mem (show kv ∈ kvs by assumption)
    have h2 : sizeOf kv.2 < sizeOf kv := by cases kv; simp
    simp only [Json.obj.sizeOf_spec]; omega

/-! ### Claim-side derivations (following the spec's words, for the
refinement claims C6 and C7) -/

/-- Spec-side contribution of one image entry: a URL when the entry has a
present, non-empty (string) file name, nothing otherwise. -/
def imageUrlSpecEntry (e : Json) : Option Json :=
  match e with
  | .obj o =>
    match dictGet o fileNameKey with
    | some (.str s) =>
      if s.isEmpty then none else some (.str (baseImageUrl ++ s ++ urlSuffix))
    | _ => none
  | _ => none

/-- The image-URL derivation exactly as the spec states it: for each entry
of the `images` list, in order, with a present non-empty `file_name`,
produce `BASE_IMAGE_URL + file_name + "&w=2048&q=75"`; anything else
contributes nothing, and a missing list yields the empty sequence. -/
def imageUrlsSpec (iv : Option Json) : List Json :=
  match iv with
  | some (.arr l) => l.filterMap imageUrlSpecEntry
  | _ => []

/-- Spec-side contribution of one types entry: the re-decoded name when
the entry has a non-empty (string) name, nothing otherwise. -/
def typeNameSpecEntry (t : Json) : Option (List Char) :=
  match t with
  | .obj o =>
    match dictGet o nameKey with
    | some (.str s) => if s.isEmpty then none else some (decode_str s)
    | _ => none
  | _ => none

/-- The types flattening exactly as the spec states it: if `types` is a
list, the comma-and-space-joined re-decoded `name` fields of the entries
with a non-empty name; otherwise the empty string. -/
def typesSpec (tv : Option Json) : List Char :=
  match tv with
  | some (.arr l) => joinCommaSpace (l.filterMap typeNameSpecEntry)
  | _ => []

/-! ### Shape condition under which `format_estate` cannot raise -/

/-- Benign shape for one `images` entry: a dict whose `file_name` (when
present and truthy) is a string. -/
def imagesEntryOk (e : Json) : Bool :=
  match e with
  | .obj o =>
    match dictGet o fileNameKey with
    | none => true
    | some fv => !truthy fv || (match fv with | .str _ => true | _ => false)
  | _ => false

/-- Benign shape for the `images` field: absent, or a list of benign
entries. -/
def imagesOk (iv : Option Json) : Bool :=
  match iv with
  | none => true
  | some (.arr l) => l.all imagesEntryOk
  | some _ => false

/-- Benign shape for one `types` entry: a dict whose `name` (when present
and truthy) is a string. -/
def typesEntryOk (t : Json) : Bool :=
  match t with
  | .obj o =>
    match dictGet o nameKey with
    | none => true
    | some nv => !truthy nv || (match nv with | .str _ => true | _ => false)
  | _ => false

/-- Benign shape for the `types` field: when it is a list, every entry is
benign; any non-list value is benign (it takes the `else` branch without
raising). -/
def typesOk (tv : Option Json) : Bool :=
  match tv with
  | some (.arr l) => l.all typesEntryOk
  | some _ => true
  | none => true

/-- Records on which `format_estate` is exception-free. -/
def wellShaped (r : List (List Char × Json)) : Bool :=
  imagesOk (dictGet r imagesKey) && typesOk (dictGet r typesKey)

/-! ### Concrete inputs used by counterexamples and witnesses -/

/-- Embed a payload object into page text between two noise strings, the
construction of the round-trip claim. -/
def embedPayload (nb : List Char) (kvs : List (List Char × Json)) (na : List Char) :
    List Char :=
  nb ++ rdPre ++ serializeJson (.obj kvs) ++ na

/-- A payload whose `realEstates` list is `[5]`. -/
def cexKvs : List (List Char × Json) := [(reName, .arr [.num 5])]

/-- Page text whose before-noise itself contains the marker (followed by
an empty object), defeating the round-trip claim as stated. -/
def cexC1Text : List Char := embedPayload (rdKey ++ ['}']) cexKvs []

/-- Page text whose payload binds `realEstates` to the number `5`. -/
def cexC8Text : List Char := embedPayload [] [(reName, .num 5)] []

/-- Record whose `images` field is the number `5` (not iterable). -/
def cexC4Rec : List (List Char × Json) := [(imagesKey, .num 5)]

/-- A benign witness record: mojibake title, two images (one with an empty
file name), a two-entry types list. -/
def witRec : List (List Char × Json) :=
  [("title".data, .str [Char.ofNat 208, Char.ofNat 191]),
   (imagesKey, .arr [.obj [(fileNameKey, .str "a.jpg".data)], .obj [(fileNameKey, .str [])]]),
   (typesKey, .arr [.obj [(nameKey, .str "Villa".data)], .obj [(nameKey, .str [])]])]

/-- Witness payload for the amended round-trip: one record with an id. -/
def witKvs : List (List Char × Json) := [(reName, .arr [.obj [("id".data, .num 7)]])]

/-- Witness page text: noise on both sides of the embedded payload. -/
def witC1Text : List Char := embedPayload ['x', 'y'] witKvs ['z', '}']

/-- Witness fetch stub: page 3 is empty, every other page has one record. -/
def witFetch : Int → List Json := fun p => if p = 3 then [] else [.num p]

/-- Witness fetch stub that never returns an empty page. -/
def witFetchFull : Int → List Json := fun p => [.num p]

/-! ## Lemmas: dict operations -/

theorem dictGet_objInsert_self (m : List (List Char × Json)) (k : List Char) (v : Json) :
    dictGet (objInsert m k v) k = some v := by
  induction m with
  | nil => simp [objInsert, dictGet]
  | cons hd t ih =>
    obtain ⟨k', v'⟩ := hd
    by_cases h : k' = k <;> simp [objInsert, dictGet, h, ih]

theorem dictGet_objInsert_ne (m : List (List Char × Json)) (k : List Char) (v : Json)
    (k' : List Char) (h : k' ≠ k) :
    dictGet (objInsert m k v) k' = dictGet m k' := by
  induction m with
  | nil =>
    simp only [objInsert, dictGet]
    rw [if_neg (fun hh => h hh.symm)]
  | cons hd t ih =>
    obtain ⟨k'', v''⟩ := hd
    by_cases h2 : k'' = k
    · subst h2
      simp only [objInsert, if_pos rfl, dictGet]
      rw [if_neg (fun hh => h hh.symm), if_neg (fun hh => h hh.symm)]
    · simp only [objInsert, if_neg h2, dictGet]
      by_cases h3 : k'' = k' <;> simp [h3, ih]

theorem decode_text_str (s : List Char) : decode_text (.str s) = .str (decode_str s) := by
  cases s <;> rfl

theorem dictGet_decodeStep_ne (acc : List (List Char × Json)) (k k' : List Char)
    (h : k' ≠ k) : dictGet (decodeStep acc k) k' = dictGet acc k' := by
  unfold decodeStep
  cases h1 : dictGet acc k with
  | none => rfl
  | some v => cases v <;> simp [dictGet_objInsert_ne _ _ _ _ h]

theorem dictGet_decodeStep_str (acc : List (List Char × Json)) (k : List Char)
    (s : List Char) (h : dictGet acc k = some (.str s)) :
    dictGet (decodeStep acc k) k = some (.str (decode_str s)) := by
  unfold decodeStep
  rw [h]
  simp [decode_text_str, dictGet_objInsert_self]

theorem decodePass_eq (r : List (List Char × Json)) :
    decodePass r =
      decodeStep (decodeStep (decodeStep (decodeStep r "title".data) "location".data)
        "area".data) "houseType".data := by
  simp [decodePass, textKeys]

theorem dictGet_decodePass_ne (r : List (List Char × Json)) (k : List Char)
    (h1 : k ≠ "title".data) (h2 : k ≠ "location".data) (h3 : k ≠ "area".data)
    (h4 : k ≠ "houseType".data) :
    dictGet (decodePass r) k = dictGet r k := by
  rw [decodePass_eq, dictGet_decodeStep_ne _ _ _ h4, dictGet_decodeStep_ne _ _ _ h3,
    dictGet_decodeStep_ne _ _ _ h2, dictGet_decodeStep_ne _ _ _ h1]

/-! ## Lemmas: the success shape of `format_estate` -/

theorem format_estate_eq (r out : List (List Char × Json))
    (h : format_estate r = some out) :
    ∃ urls ts,
      (match dictGet (decodePass r) imagesKey with
        | none => some []
        | some v => imagesComp v) = some urls ∧
      typesComp (dictGet (objInsert (decodePass r) imageUrlsKey (.arr urls)) typesKey) =
        some ts ∧
      out = objInsert (objInsert (decodePass r) imageUrlsKey (.arr urls)) typesKey (.str ts) := by
  unfold format_estate at h
  split at h
  · exact absurd h (by simp)
  · rename_i urls h1
    split at h
    · exact absurd h (by simp)
    · rename_i ts h2
      simp only [Option.some.injEq] at h
      exact ⟨urls, ts, h1, h2, h.symm⟩

theorem imageEntryUrl_skip (e : Json) (h : imageEntryUrl e = some none) :
    imageUrlSpecEntry e = none := by
  rcases e with _ | b | n | s | xs | o <;> simp [imageEntryUrl] at h <;>
    try simp [imageUrlSpecEntry]
  cases h5 : dictGet o fileNameKey with
  | none => simp [h5]
  | some fv =>
    rw [h5] at h
    by_cases h6 : truthy fv = true
    · rcases fv with _ | b | n | s | xs | o2 <;> simp [h6] at h
    · rcases fv with _ | b | n | s | xs | o2 <;> simp [h5] <;> simp [truthy] at h6 <;>
        simp [h6]

theorem imageEntryUrl_yield (e : Json) (u : Json) (h : imageEntryUrl e = some (some u)) :
    imageUrlSpecEntry e = some u ∧ ∃ s, u = .str s := by
  rcases e with _ | b | n | s | xs | o <;> simp [imageEntryUrl] at h
  cases h5 : dictGet o fileNameKey with
  | none => rw [h5] at h; simp at h
  | some fv =>
    rw [h5] at h
    by_cases h6 : truthy fv = true
    · rcases fv with _ | b | n | s | xs | o2 <;> simp [h6] at h
      refine ⟨?_, _, h.symm⟩
      have h7 : s.isEmpty = false := by simpa [truthy] using h6
      simp [imageUrlSpecEntry, h5, h7, h]
    · simp [h6] at h

theorem imagesLoop_spec (l : List Json) (us : List Json) (h : imagesLoop l = some us) :
    us = l.filterMap imageUrlSpecEntry := by
  induction l generalizing us with
  | nil => simp [imagesLoop] at h; simp [h]
  | cons e t ih =>
    simp only [imagesLoop] at h
    cases h1 : imageEntryUrl e with
    | none => rw [h1] at h; exact absurd h (by simp)
    | some u1 =>
      rw [h1] at h
      cases u1 with
      | none =>
        simp only [List.filterMap_cons, imageEntryUrl_skip e h1]
        exact ih us h
      | some u =>
        cases h2 : imagesLoop t with
        | none => rw [h2] at h; exact absurd h (by simp)
        | some us' =>
          rw [h2] at h
          simp only [Option.map_some', Option.some.injEq] at h
          simp only [List.filterMap_cons, (imageEntryUrl_yield e u h1).1]
          rw [← h, ih us' h2]

theorem imagesLoop_strs (l : List Json) (us : List Json) (h : imagesLoop l = some us) :
    ∀ u ∈ us, ∃ s, u = .str s := by
  induction l generalizing us with
  | nil => simp [imagesLoop] at h; simp [h]
  | cons e t ih =>
    simp only [imagesLoop] at h
    cases h1 : imageEntryUrl e with
    | none => rw [h1] at h; exact absurd h (by simp)
    | some u1 =>
      rw [h1] at h
      cases u1 with
      | none => exact ih us h
      | some u =>
        cases h2 : imagesLoop t with
        | none => rw [h2] at h; exact absurd h (by simp)
        | some us' =>
          rw [h2] at h
          simp only [Option.map_some', Option.some.injEq] at h
          intro x hx
          rw [← h] at hx
          rcases List.mem_cons.mp hx with h3 | h3
          · subst h3
            exact (imageEntryUrl_yield e x h1).2
          · exact ih us' h2 x h3

theorem typeEntryName_skip (t : Json) (h : typeEntryName t = some none) :
    typeNameSpecEntry t = none := by
  rcases t with _ | b | n | s | xs | o <;> simp [typeEntryName] at h <;>
    try simp [typeNameSpecEntry]
  cases h5 : dictGet o nameKey with
  | none => simp [h5]
  | some nv =>
    rw [h5] at h
    by_cases h6 : truthy nv = true
    · rcases nv with _ | b | n | s | xs | o2 <;> simp [h6] at h
    · rcases nv with _ | b | n | s | xs | o2 <;> simp [h5] <;> simp [truthy] at h6 <;>
        simp [h6]

theorem typeEntryName_yield (t : Json) (s0 : List Char)
    (h : typeEntryName t = some (some s0)) : typeNameSpecEntry t = some s0 := by
  rcases t with _ | b | n | s | xs | o <;> simp [typeEntryName] at h
  cases h5 : dictGet o nameKey with
  | none => rw [h5] at h; simp at h
  | some nv =>
    rw [h5] at h
    by_cases h6 : truthy nv = true
    · rcases nv with _ | b | n | s | xs | o2 <;> simp [h6] at h
      have h7 : s.isEmpty = false := by simpa [truthy] using h6
      simp [typeNameSpecEntry, h5, h7, h]
    · simp [h6] at h

theorem typesLoop_spec (l : List Json) (ss : List (List Char))
    (h : typesLoop l = some ss) : ss = l.filterMap typeNameSpecEntry := by
  induction l generalizing ss with
  | nil => simp [typesLoop] at h; simp [h]
  | cons e t ih =>
    simp only [typesLoop] at h
    cases h1 : typeEntryName e with
    | none => rw [h1] at h; exact absurd h (by simp)
    | some s1 =>
      rw [h1] at h
      cases s1 with
      | none =>
        simp only [List.filterMap_cons, typeEntryName_skip e h1]
        exact ih ss h
      | some s0 =>
        cases h2 : typesLoop t with
        | none => rw [h2] at h; exact absurd h (by simp)
        | some ss' =>
          rw [h2] at h
          simp only [Option.map_some', Option.some.injEq] at h
          simp only [List.filterMap_cons, typeEntryName_yield e s0 h1]
          rw [← h, ih ss' h2]

theorem imagesResult_spec (iv : Option Json) (urls : List Json)
    (h : (match iv with | none => some [] | some v => imagesComp v) = some urls) :
    urls = imageUrlsSpec iv := by
  cases iv with
  | none => simp at h; simp [imageUrlsSpec, h.symm]
  | some v =>
    simp only at h
    rcases v with _ | b | n | s | xs | o <;> simp [imagesComp] at h
    · cases s with
      | nil => simp [imageUrlsSpec, h.symm]
      | cons c t => simp at h
    · exact imagesLoop_spec xs urls h
    · cases o with
      | nil => simp [imageUrlsSpec, h.symm]
      | cons kv t => simp at h

theorem typesComp_spec (tv : Option Json) (ts : List Char)
    (h : typesComp tv = some ts) : ts = typesSpec tv := by
  cases tv with
  | none => simp [typesComp] at h; simp [typesSpec, h.symm]
  | some v =>
    by_cases h6 : truthy v = true
    · rcases v with _ | b | n | s | xs | o <;> simp [typesComp, h6] at h <;>
        try simp [typesSpec, h.symm]
      cases h7 : typesLoop xs with
      | none => rw [h7] at h; simp at h
      | some ss =>
        rw [h7] at h
        have hts : joinCommaSpace ss = ts := by simpa using h
        rw [← hts, typesLoop_spec xs ss h7]
        simp [typesSpec]
    · rcases v with _ | b | n | s | xs | o <;> simp [typesComp, h6] at h <;>
        try simp [typesSpec, h.symm]
      have h8 : xs = [] := by simpa [truthy] using h6
      subst h8
      have h9 : ts = [] := by simpa [typesLoop] using h.symm
      simp [typesSpec, h9, joinCommaSpace]

theorem imageEntryUrl_ok (e : Json) (h : imagesEntryOk e = true) :
    ∃ u1, imageEntryUrl e = some u1 := by
  rcases e with _ | b | n | s | xs | o <;> simp [imagesEntryOk] at h
  cases h5 : dictGet o fileNameKey with
  | none => exact ⟨none, by simp [imageEntryUrl, h5]⟩
  | some fv =>
    rw [h5] at h
    by_cases h6 : truthy fv = true
    · rcases fv with _ | b | n | s | xs | o2
      · simp [truthy] at h6
      · simp [truthy] at h6 h
        simp [h6] at h
      · simp [truthy] at h6 h
        exact absurd h h6
      · refine ⟨some (.str (baseImageUrl ++ s ++ urlSuffix)), ?_⟩
        have h7 : s.isEmpty = false := by simpa [truthy] using h6
        simp [imageEntryUrl, h5, truthy, h7]
      · simp [truthy] at h6 h
        exact absurd h h6
      · simp [truthy] at h6 h
        exact absurd h h6
    · exact ⟨none, by simp [imageEntryUrl, h5, h6]⟩

theorem imagesLoop_ok (l : List Json) (h : l.all imagesEntryOk = true) :
    ∃ us, imagesLoop l = some us := by
  induction l with
  | nil => exact ⟨[], rfl⟩
  | cons e t ih =>
    simp only [List.all_cons, Bool.and_eq_true] at h
    obtain ⟨us, hus⟩ := ih h.2
    obtain ⟨u1, hu1⟩ := imageEntryUrl_ok e h.1
    cases u1 with
    | none => exact ⟨us, by simp [imagesLoop, hu1, hus]⟩
    | some u => exact ⟨u :: us, by simp [imagesLoop, hu1, hus]⟩

theorem typeEntryName_ok (t : Json) (h : typesEntryOk t = true) :
    ∃ s1, typeEntryName t = some s1 := by
  rcases t with _ | b | n | s | xs | o <;> simp [typesEntryOk] at h
  cases h5 : dictGet o nameKey with
  | none => exact ⟨none, by simp [typeEntryName, h5]⟩
  | some nv =>
    rw [h5] at h
    by_cases h6 : truthy nv = true
    · rcases nv with _ | b | n | s | xs | o2
      · simp [truthy] at h6
      · simp [truthy] at h6 h
        simp [h6] at h
      · simp [truthy] at h6 h
        exact absurd h h6
      · refine ⟨some (decode_str s), ?_⟩
        have h7 : s.isEmpty = false := by simpa [truthy] using h6
        simp [typeEntryName, h5, truthy, h7]
      · simp [truthy] at h6 h
        exact absurd h h6
      · simp [truthy] at h6 h
        exact absurd h h6
    · exact ⟨none, by simp [typeEntryName, h5, h6]⟩

theorem typesLoop_ok (l : List Json) (h : l.all typesEntryOk = true) :
    ∃ ss, typesLoop l = some ss := by
  induction l with
  | nil => exact ⟨[], rfl⟩
  | cons e t ih =>
    simp only [List.all_cons, Bool.and_eq_true] at h
    obtain ⟨ss, hss⟩ := ih h.2
    obtain ⟨s1, hs1⟩ := typeEntryName_ok e h.1
    cases s1 with
    | none => exact ⟨ss, by simp [typesLoop, hs1, hss]⟩
    | some s0 => exact ⟨s0 :: ss, by simp [typesLoop, hs1, hss]⟩

theorem typesComp_ok (tv : Option Json) (h : typesOk tv = true) :
    ∃ ts, typesComp tv = some ts := by
  cases tv with
  | none => exact ⟨[], rfl⟩
  | some v =>
    by_cases h6 : truthy v = true
    · rcases v with _ | b | n | s | xs | o
      · exact ⟨[], by simp [typesComp, h6]⟩
      · exact ⟨[], by simp [typesComp, h6]⟩
      · exact ⟨[], by simp [typesComp, h6]⟩
      · exact ⟨[], by simp [typesComp, h6]⟩
      · simp only [typesOk] at h
        obtain ⟨ss, hss⟩ := typesLoop_ok xs h
        exact ⟨joinCommaSpace ss, by simp [typesComp, h6, hss]⟩
      · exact ⟨[], by simp [typesComp, h6]⟩
    · exact ⟨[], by simp [typesComp, h6]⟩

theorem dictGet_decodePass_textKey (r : List (List Char × Json)) (k : List Char)
    (s : List Char) (hk : k ∈ textKeys) (h : dictGet r k = some (.str s)) :
    dictGet (decodePass r) k = some (.str (decode_str s)) := by
  fin_cases hk
  · rw [decodePass_eq, dictGet_decodeStep_ne _ _ _ (by decide),
      dictGet_decodeStep_ne _ _ _ (by decide), dictGet_decodeStep_ne _ _ _ (by decide)]
    exact dictGet_decodeStep_str _ _ _ h
  · rw [decodePass_eq, dictGet_decodeStep_ne _ _ _ (by decide),
      dictGet_decodeStep_ne _ _ _ (by decide)]
    exact dictGet_decodeStep_str _ _ _ (by rw [dictGet_decodeStep_ne _ _ _ (by decide), h])
  · rw [decodePass_eq, dictGet_decodeStep_ne _ _ _ (by decide)]
    exact dictGet_decodeStep_str _ _ _
      (by rw [dictGet_decodeStep_ne _ _ _ (by decide),
        dictGet_decodeStep_ne _ _ _ (by decide), h])
  · rw [decodePass_eq]
    exact dictGet_decodeStep_str _ _ _
      (by rw [dictGet_decodeStep_ne _ _ _ (by decide), dictGet_decodeStep_ne _ _ _ (by decide),
        dictGet_decodeStep_ne _ _ _ (by decide), h])

theorem imageUrlSpecEntry_str (e u : Json) (h : imageUrlSpecEntry e = some u) :
    ∃ s, u = .str s := by
  rcases e with _ | b | n | s | xs | o
  · exact absurd h (by simp [imageUrlSpecEntry])
  · exact absurd h (by simp [imageUrlSpecEntry])
  · exact absurd h (by simp [imageUrlSpecEntry])
  · exact absurd h (by simp [imageUrlSpecEntry])
  · exact absurd h (by simp [imageUrlSpecEntry])
  · cases h5 : dictGet o fileNameKey with
    | none => exact absurd h (by simp [imageUrlSpecEntry, h5])
    | some fv =>
      rcases fv with _ | b | n | s | xs | o2
      · exact absurd h (by simp [imageUrlSpecEntry, h5])
      · exact absurd h (by simp [imageUrlSpecEntry, h5])
      · exact absurd h (by simp [imageUrlSpecEntry, h5])
      · by_cases h7 : s.isEmpty = true
        · exact absurd h (by simp [imageUrlSpecEntry, h5, h7])
        · have he : imageUrlSpecEntry (Json.obj o) =
              some (.str (baseImageUrl ++ s ++ urlSuffix)) := by
            simp [imageUrlSpecEntry, h5, h7]
          rw [he] at h
          exact ⟨_, (Option.some.inj h).symm⟩
      · exact absurd h (by simp [imageUrlSpecEntry, h5])
      · exact absurd h (by simp [imageUrlSpecEntry, h5])

theorem imageUrlsSpec_strs (iv : Option Json) :
    ∀ u ∈ imageUrlsSpec iv, ∃ s, u = .str s := by
  intro u hu
  rcases iv with _ | v
  · simp [imageUrlsSpec] at hu
  · rcases v with _ | b | n | s | xs | o <;> simp [imageUrlsSpec] at hu
    obtain ⟨e, _, hee⟩ := hu
    exact imageUrlSpecEntry_str e u hee

/-! ## Claim theorems: the normalizer (`format_estate`) -/

/-- C4, counterexample to the claim as stated: on the record
`{"images": 5}` — one of the claim's own "malformed shapes such as a
non-list `images` value" — `format_estate` does not return a record: the
comprehension `for img in images` raises `TypeError: 'int' object is not
iterable`, which nothing catches (modelled by `none`). -/
theorem claim_C4_counterexample : format_estate cexC4Rec = none := rfl

/-- C4 (amended): `format_estate` returns a `NormalizedRecord` without
raising for every record of benign shape — `images` absent or a list of
dicts whose `file_name` (when present and truthy) is a string, and every
entry of a list-valued `types` a dict whose `name` (when present and
truthy) is a string.  On the claim's malformed shapes (non-list `images`,
non-dict `types` entries, ...) an exception escapes instead. -/
theorem claim_C4 (r : List (List Char × Json)) (h : wellShaped r = true) :
    ∃ out, format_estate r = some out := by
  unfold wellShaped at h
  simp only [Bool.and_eq_true] at h
  have him : ∃ urls, (match dictGet (decodePass r) imagesKey with
      | none => some []
      | some v => imagesComp v) = some urls := by
    rw [dictGet_decodePass_ne r imagesKey (by decide) (by decide) (by decide) (by decide)]
    cases h5 : dictGet r imagesKey with
    | none => exact ⟨[], rfl⟩
    | some v =>
      have h1 := h.1
      rw [h5] at h1
      rcases v with _ | b | n | s | xs | o <;> simp [imagesOk] at h1
      exact imagesLoop_ok xs (List.all_eq_true.mpr h1)
  obtain ⟨urls, hurls⟩ := him
  have hty : ∃ ts, typesComp
      (dictGet (objInsert (decodePass r) imageUrlsKey (.arr urls)) typesKey) = some ts := by
    rw [dictGet_objInsert_ne _ _ _ _ (by decide),
      dictGet_decodePass_ne r typesKey (by decide) (by decide) (by decide) (by decide)]
    exact typesComp_ok _ h.2
  obtain ⟨ts, hts⟩ := hty
  cases hfe : format_estate r with
  | some out => exact ⟨out, rfl⟩
  | none =>
    exfalso
    unfold format_estate at hfe
    split at hfe
    · rename_i h1
      rw [hurls] at h1
      cases h1
    · rename_i urls' h1
      rw [hurls] at h1
      cases h1
      split at hfe
      · rename_i h2
        rw [hts] at h2
        cases h2
      · cases hfe

/-- Witness for C4: the benign record `witRec` is well shaped and
`format_estate` returns on it. -/
theorem claim_C4_witness : wellShaped witRec = true ∧ ∃ out, format_estate witRec = some out :=
  ⟨rfl, claim_C4 witRec rfl⟩

/-- C5 (confirmed): for each of the four text fields present with a string
value `s`, the output holds the result of encoding the code points of `s`
one byte per character and decoding those bytes as UTF-8; whenever that
reinterpretation fails — a code point above 255 (`latin1Enc` fails) or an
invalid UTF-8 byte sequence (`utf8Dec` fails) — the output holds the
original text unchanged. -/
theorem claim_C5 (r out : List (List Char × Json)) (k s : List Char)
    (hk : k ∈ textKeys) (hfe : format_estate r = some out)
    (hv : dictGet r k = some (.str s)) :
    (∀ bs t, latin1Enc s = some bs → utf8Dec bs = some t →
      dictGet out k = some (.str t)) ∧
    (latin1Enc s = none → dictGet out k = some (.str s)) ∧
    (∀ bs, latin1Enc s = some bs → utf8Dec bs = none →
      dictGet out k = some (.str s)) := by
  obtain ⟨urls, ts, h1, h2, hout⟩ := format_estate_eq r out hfe
  subst hout
  have hk1 : k ≠ typesKey := by fin_cases hk <;> decide
  have hk2 : k ≠ imageUrlsKey := by fin_cases hk <;> decide
  have base : dictGet
      (objInsert (objInsert (decodePass r) imageUrlsKey (.arr urls)) typesKey (.str ts)) k =
      some (.str (decode_str s)) := by
    rw [dictGet_objInsert_ne _ _ _ _ hk1, dictGet_objInsert_ne _ _ _ _ hk2]
    exact dictGet_decodePass_textKey r k s hk hv
  refine ⟨?_, ?_, ?_⟩
  · intro bs t hbs ht
    rw [base]
    simp [decode_str, hbs, ht]
  · intro hbs
    rw [base]
    simp [decode_str, hbs]
  · intro bs hbs ht
    rw [base]
    simp [decode_str, hbs, ht]

/-- Witness for C5: the mojibake title `[U+00D0, U+00BF]` of `witRec`
re-decodes to the single Cyrillic letter U+043F. -/
theorem claim_C5_witness :
    ∃ out, format_estate witRec = some out ∧
      dictGet out "title".data = some (.str [Char.ofNat 1087]) := by
  obtain ⟨out, hout⟩ : ∃ out, format_estate witRec = some out := ⟨_, rfl⟩
  exact ⟨out, hout,
    (claim_C5 witRec out "title".data [Char.ofNat 208, Char.ofNat 191]
        (by decide) hout rfl).1 [208, 191] [Char.ofNat 1087] rfl rfl⟩

/-- C6 (confirmed): whenever `format_estate` returns, the output's
`image_urls` is exactly the list holding, for each entry of the input's
`images` list in order with a present non-empty `file_name`, the string
`BASE_IMAGE_URL + file_name + "&w=2048&q=75"`; entries without a
non-empty file name contribute nothing and an absent `images` field
yields the empty sequence (`imageUrlsSpec` is that derivation stated from
the spec's words). -/
theorem claim_C6 (r out : List (List Char × Json)) (hfe : format_estate r = some out) :
    dictGet out imageUrlsKey = some (.arr (imageUrlsSpec (dictGet r imagesKey))) := by
  obtain ⟨urls, ts, h1, h2, hout⟩ := format_estate_eq r out hfe
  subst hout
  rw [dictGet_objInsert_ne _ _ _ _ (by decide), dictGet_objInsert_self]
  rw [dictGet_decodePass_ne r imagesKey (by decide) (by decide) (by decide) (by decide)] at h1
  rw [imagesResult_spec _ urls h1]

/-- Witness for C6: on `witRec` (file names `"a.jpg"` and `""`) the
derived `image_urls` has exactly the one `"a.jpg"` URL. -/
theorem claim_C6_witness :
    ∃ out, format_estate witRec = some out ∧
      dictGet out imageUrlsKey =
        some (.arr [.str (baseImageUrl ++ "a.jpg".data ++ urlSuffix)]) := by
  obtain ⟨out, hout⟩ : ∃ out, format_estate witRec = some out := ⟨_, rfl⟩
  refine ⟨out, hout, ?_⟩
  rw [claim_C6 witRec out hout]
  rfl

/-- C7 (confirmed): whenever `format_estate` returns, the output's `types`
is the comma-and-space-joined string of the re-decoded `name` fields of
the entries of a list-valued `types` that have a non-empty name, and the
empty string when `types` is absent, null, or any non-list value
(`typesSpec` is that flattening stated from the spec's words). -/
theorem claim_C7 (r out : List (List Char × Json)) (hfe : format_estate r = some out) :
    dictGet out typesKey = some (.str (typesSpec (dictGet r typesKey))) := by
  obtain ⟨urls, ts, h1, h2, hout⟩ := format_estate_eq r out hfe
  subst hout
  rw [dictGet_objInsert_self]
  rw [dictGet_objInsert_ne _ _ _ _ (by decide),
    dictGet_decodePass_ne r typesKey (by decide) (by decide) (by decide) (by decide)] at h2
  rw [typesComp_spec _ ts h2]

/-- Witness for C7: on `witRec` (names `"Villa"` and `""`) the flattened
`types` string is `"Villa"`; on a record whose `types` is the string
`"not-a-list"` it is empty. -/
theorem claim_C7_witness :
    (∃ out, format_estate witRec = some out ∧
      dictGet out typesKey = some (.str "Villa".data)) ∧
    (∃ out2, format_estate [(typesKey, .str "not-a-list".data)] = some out2 ∧
      dictGet out2 typesKey = some (.str [])) := by
  constructor
  · obtain ⟨out, hout⟩ : ∃ out, format_estate witRec = some out := ⟨_, rfl⟩
    refine ⟨out, hout, ?_⟩
    rw [claim_C7 witRec out hout]
    rfl
  · obtain ⟨out2, hout2⟩ :
        ∃ out2, format_estate [(typesKey, .str "not-a-list".data)] = some out2 := ⟨_, rfl⟩
    refine ⟨out2, hout2, ?_⟩
    rw [claim_C7 _ out2 hout2]
    rfl

/-- C10 (confirmed): whenever `format_estate` returns, the output record
contains `image_urls` bound to a list of strings and `types` bound to a
string, both set to the derived values (any input values under those keys
are overwritten, since the lookups hit the freshly inserted pairs). -/
theorem claim_C10 (r out : List (List Char × Json)) (hfe : format_estate r = some out) :
    (∃ urls, dictGet out imageUrlsKey = some (.arr urls) ∧
      ∀ u ∈ urls, ∃ s, u = .str s) ∧
    (∃ ts, dictGet out typesKey = some (.str ts)) := by
  obtain ⟨urls, ts, h1, h2, hout⟩ := format_estate_eq r out hfe
  subst hout
  constructor
  · refine ⟨urls, ?_, ?_⟩
    · rw [dictGet_objInsert_ne _ _ _ _ (by decide), dictGet_objInsert_self]
    · intro u hu
      rw [imagesResult_spec _ urls h1] at hu
      exact imageUrlsSpec_strs _ u hu
  · exact ⟨ts, by rw [dictGet_objInsert_self]⟩

/-- Witness for C10: the output on `witRec` has a string-list `image_urls`
and a string `types`, even though `witRec` held neither key with those
values. -/
theorem claim_C10_witness :
    ∃ out, format_estate witRec = some out ∧
      ((∃ urls, dictGet out imageUrlsKey = some (.arr urls) ∧
        ∀ u ∈ urls, ∃ s, u = .str s) ∧
      (∃ ts, dictGet out typesKey = some (.str ts))) := by
  obtain ⟨out, hout⟩ : ∃ out, format_estate witRec = some out := ⟨_, rfl⟩
  exact ⟨out, hout, claim_C10 witRec out hout⟩

/-! ## Claim theorems: extractor failure paths (C2) and result selection (C8) -/

/-- C2 (confirmed): for every page text without the marker, and for every
page text where the marker's brace sequence never returns the depth to
zero, `extract_realestates` returns the empty list.  No exception can
escape: the model of the function is total (`Json`-valued, not
`Option`-valued), mirroring the source where every failure is caught. -/
theorem claim_C2 (text : List Char) :
    (findSubstr rdKey text = none → extract_realestates text = .arr []) ∧
    (∀ s0, findSubstr rdKey text = some s0 →
      scanEnd (text.drop (s0 + 19)) 1 = none → extract_realestates text = .arr []) := by
  constructor
  · intro h
    simp [extract_realestates, h]
  · intro s0 h1 h2
    simp [extract_realestates, h1, h2]

/-- Witness for C2: a markerless text, and the marker alone (its brace
sequence never closes). -/
theorem claim_C2_witness :
    extract_realestates "hello".data = .arr [] ∧ extract_realestates rdKey = .arr [] :=
  ⟨(claim_C2 "hello".data).1 rfl, (claim_C2 rdKey).2 0 rfl rfl⟩

/-- C8, counterexample to "the returned value is always a sequence": on a
page whose payload binds `realEstates` to the number `5`, the source's
`data.get('realEstates', [])` returns that number as-is, so
`extract_realestates` returns `5`, not a sequence. -/
theorem claim_C8_counterexample :
    extract_realestates cexC8Text = .num 5 ∧ isArrJ (extract_realestates cexC8Text) = false :=
  ⟨rfl, rfl⟩

/-- C8 (amended): for every page text from which a balanced block is
sliced and parsed as a JSON object, `extract_realestates` returns the
value of the object's `realEstates` field whatever it is when the field
is present, and the empty list when it is absent; the result is a
sequence whenever that field is absent or holds a list (but not in
general: see the counterexample). -/
theorem claim_C8 (text : List Char) (s0 j : Nat) (kvs : List (List Char × Json))
    (h1 : findSubstr rdKey text = some s0)
    (h2 : scanEnd (text.drop (s0 + 19)) 1 = some j)
    (h3 : json_loads ((text.drop (s0 + 18)).take (j + 2)) = some (.obj kvs)) :
    extract_realestates text = (dictGet kvs reName).getD (.arr []) ∧
    (dictGet kvs reName = none → extract_realestates text = .arr []) ∧
    (∀ l, dictGet kvs reName = some (.arr l) → extract_realestates text = .arr l) := by
  have he : extract_realestates text = (dictGet kvs reName).getD (.arr []) := by
    simp [extract_realestates, h1, h2, h3]
  refine ⟨he, ?_, ?_⟩
  · intro hn
    rw [he, hn]
    rfl
  · intro l hl
    rw [he, hl]
    rfl

/-- Witness for C8: the embedded payload `{"realEstates":[{"id":7}]}` with
no noise; the extractor returns exactly that one-record list. -/
theorem claim_C8_witness :
    extract_realestates (embedPayload [] witKvs []) =
      .arr [.obj [("id".data, .num 7)]] :=
  (claim_C8 (embedPayload [] witKvs []) 0 24 witKvs rfl rfl rfl).2.2
    [.obj [("id".data, .num 7)]] rfl

/-! ## Lemmas: pagination -/

theorem intRange_nil (a b : Int) (h : b ≤ a) : intRange a b = [] := by
  unfold intRange
  have h1 : (b - a).toNat = 0 := by omega
  rw [h1]
  rfl

theorem intRange_cons (a b : Int) (h : a < b) : intRange a b = a :: intRange (a + 1) b := by
  unfold intRange
  have h1 : (b - a).toNat = (b - (a + 1)).toNat + 1 := by omega
  rw [h1, List.range_succ_eq_map, List.map_cons, List.map_map]
  refine congrArg₂ List.cons (by simp) ?_
  congr 1
  funext k
  simp [Function.comp]
  omega

theorem mem_intRange (a b p : Int) : p ∈ intRange a b ↔ a ≤ p ∧ p < b := by
  unfold intRange
  simp only [List.mem_map, List.mem_range]
  constructor
  · rintro ⟨k, hk, rfl⟩
    omega
  · rintro ⟨h1, h2⟩
    exact ⟨(p - a).toNat, by omega, by omega⟩

theorem intRange_length (a b : Int) : (intRange a b).length = (b - a).toNat := by
  simp [intRange]

theorem intRange_split (a c b : Int) (h1 : a ≤ c) (h2 : c ≤ b) :
    intRange a b = intRange a c ++ intRange c b := by
  have hm : ∀ n : Nat, ∀ a c b : Int, a ≤ c → c ≤ b → (c - a).toNat = n →
      intRange a b = intRange a c ++ intRange c b := by
    intro n
    induction n with
    | zero =>
      intro a c b ha hc hn
      have : a = c := by omega
      subst this
      rw [intRange_nil a a le_rfl]
      rfl
    | succ m ih =>
      intro a c b ha hc hn
      have hac : a < c := by omega
      rw [intRange_cons a b (by omega), intRange_cons a c hac,
        ih (a + 1) c b (by omega) hc (by omega)]
      rfl
  exact hm (c - a).toNat a c b h1 h2 rfl

theorem runPagesAux_all (fetch : Int → List Json) (ps : List Int)
    (acc : List Json) (tr : List Int) (last : Option (Int × List Json))
    (h : ∀ p ∈ ps, fetch p ≠ []) :
    (runPagesAux fetch ps acc tr last).1 = acc ++ (ps.map fetch).join ∧
    (runPagesAux fetch ps acc tr last).2.1 = tr ++ ps ∧
    (ps = [] → (runPagesAux fetch ps acc tr last).2.2 = last) ∧
    (ps ≠ [] → (runPagesAux fetch ps acc tr last).2.2 ≠ none) := by
  induction ps generalizing acc tr last with
  | nil => simp [runPagesAux]
  | cons p t ih =>
    have hp : fetch p ≠ [] := h p (List.mem_cons_self p t)
    have hne : (fetch p).isEmpty = false := by
      cases hfp : fetch p with
      | nil => exact absurd hfp hp
      | cons x xs => rfl
    have ht : ∀ q ∈ t, fetch q ≠ [] := fun q hq => h q (List.mem_cons_of_mem p hq)
    obtain ⟨ih1, ih2, ih3, ih4⟩ := ih (acc ++ fetch p) (tr ++ [p]) (some (p, fetch p)) ht
    refine ⟨?_, ?_, ?_, ?_⟩
    · simp only [runPagesAux, hne, Bool.false_eq_true, if_false, ih1]
      simp
    · simp only [runPagesAux, hne, Bool.false_eq_true, if_false, ih2]
      simp
    · intro hcon
      exact absurd hcon (by simp)
    · intro _
      simp only [runPagesAux, hne, Bool.false_eq_true, if_false]
      cases htnil : t with
      | nil =>
        rw [htnil] at ih3
        rw [ih3 rfl]
        simp
      | cons q u =>
        rw [htnil] at ih4
        exact ih4 (by simp)

theorem runPagesAux_split (fetch : Int → List Json) (ps1 : List Int) (k : Int)
    (ps2 : List Int) (acc : List Json) (tr : List Int) (last : Option (Int × List Json))
    (h1 : ∀ p ∈ ps1, fetch p ≠ []) (hk : fetch k = []) :
    runPagesAux fetch (ps1 ++ k :: ps2) acc tr last =
      (acc ++ (ps1.map fetch).join, tr ++ ps1 ++ [k], some (k, [])) := by
  induction ps1 generalizing acc tr last with
  | nil =>
    have hke : (fetch k).isEmpty = true := by rw [hk]; rfl
    simp [runPagesAux, hke, hk]
  | cons p t ih =>
    have hp : fetch p ≠ [] := h1 p (List.mem_cons_self p t)
    have hne : (fetch p).isEmpty = false := by
      cases hfp : fetch p with
      | nil => exact absurd hfp hp
      | cons x xs => rfl
    have ht : ∀ q ∈ t, fetch q ≠ [] := fun q hq => h1 q (List.mem_cons_of_mem p hq)
    simp only [List.cons_append, runPagesAux, hne, Bool.false_eq_true, if_false,
      List.append_eq]
    rw [ih (acc ++ fetch p) (tr ++ [p]) (some (p, fetch p)) ht]
    simp

/-! ## Claim theorems: pagination (C3, C9) -/

/-- C3 (confirmed): for `max_pages ≥ 1`, the paginator fetches pages
`1, 2, ...` in that order; if no page up to `max_pages` is empty it
performs exactly `max_pages` fetches and returns the concatenation of all
pages in order; if `k` is the first empty page it fetches exactly pages
`1..k` (none after `k`) and returns the concatenation of pages `1..k-1`
in page order, preserving within-page order. -/
theorem claim_C3 (fetch : Int → List Json) (max_pages : Int) (hmp : 1 ≤ max_pages) :
    ((∀ p, 1 ≤ p → p ≤ max_pages → fetch p ≠ []) →
      pagesFetched fetch max_pages = intRange 1 (max_pages + 1) ∧
      (pagesFetched fetch max_pages).length = max_pages.toNat ∧
      get_all_realestates fetch max_pages =
        some (((intRange 1 (max_pages + 1)).map fetch).join)) ∧
    (∀ k, 1 ≤ k → k ≤ max_pages → fetch k = [] →
      (∀ p, 1 ≤ p → p < k → fetch p ≠ []) →
      pagesFetched fetch max_pages = intRange 1 (k + 1) ∧
      get_all_realestates fetch max_pages = some (((intRange 1 k).map fetch).join)) := by
  constructor
  · intro hall
    have hmem : ∀ p ∈ intRange 1 (max_pages + 1), fetch p ≠ [] := by
      intro p hp
      obtain ⟨hp1, hp2⟩ := (mem_intRange 1 (max_pages + 1) p).mp hp
      exact hall p hp1 (by omega)
    obtain ⟨h1, h2, _, h4⟩ :=
      runPagesAux_all fetch (intRange 1 (max_pages + 1)) [] [] none hmem
    have hne : intRange 1 (max_pages + 1) ≠ [] := by
      rw [intRange_cons 1 (max_pages + 1) (by omega)]
      simp
    refine ⟨?_, ?_, ?_⟩
    · unfold pagesFetched runAll
      rw [h2]
      rfl
    · unfold pagesFetched runAll
      rw [h2, List.nil_append, intRange_length]
      omega
    · unfold get_all_realestates runAll
      cases h6 : (runPagesAux fetch (intRange 1 (max_pages + 1)) [] [] none).2.2 with
      | none => exact absurd h6 (h4 hne)
      | some q => simp [h6, h1]
  · intro k hk1 hk2 hkempty hbefore
    have hdec : intRange 1 (max_pages + 1) = intRange 1 k ++ k :: intRange (k + 1) (max_pages + 1) := by
      rw [intRange_split 1 k (max_pages + 1) hk1 (by omega),
        intRange_cons k (max_pages + 1) (by omega)]
    have hmem : ∀ p ∈ intRange 1 k, fetch p ≠ [] := by
      intro p hp
      obtain ⟨hp1, hp2⟩ := (mem_intRange 1 k p).mp hp
      exact hbefore p hp1 hp2
    have hrun := runPagesAux_split fetch (intRange 1 k) k (intRange (k + 1) (max_pages + 1))
      [] [] none hmem hkempty
    have htr : intRange 1 k ++ [k] = intRange 1 (k + 1) := by
      rw [intRange_split 1 k (k + 1) hk1 (by omega), intRange_cons k (k + 1) (by omega),
        intRange_nil (k + 1) (k + 1) le_rfl]
    constructor
    · unfold pagesFetched runAll
      rw [hdec, hrun]
      simpa using htr
    · unfold get_all_realestates runAll
      rw [hdec, hrun]
      simp

/-- Witness for C3: with a fetch stub empty exactly at page 3 and
`max_pages = 5`, pages `1, 2, 3` are fetched and records of pages 1-2
returned; with a never-empty stub and `max_pages = 3`, exactly 3 fetches
occur. -/
theorem claim_C3_witness :
    (pagesFetched witFetch 5 = [1, 2, 3] ∧
      get_all_realestates witFetch 5 = some [.num 1, .num 2]) ∧
    (pagesFetched witFetchFull 3 = [1, 2, 3] ∧
      (pagesFetched witFetchFull 3).length = 3 ∧
      get_all_realestates witFetchFull 3 = some [.num 1, .num 2, .num 3]) := by
  constructor
  · have h := (claim_C3 witFetch 5 (by norm_num)).2 3 (by norm_num) (by norm_num) rfl
      (by
        intro p h1 h2
        have hp : p = 1 ∨ p = 2 := by omega
        rcases hp with rfl | rfl
        · simp [witFetch]
        · simp [witFetch])
    obtain ⟨h1, h2⟩ := h
    constructor
    · rw [h1]
      rfl
    · rw [h2]
      rfl
  · have h := (claim_C3 witFetchFull 3 (by norm_num)).1
      (by
        intro p h1 h2
        simp [witFetchFull])
    obtain ⟨h1, h2, h3⟩ := h
    refine ⟨?_, ?_, ?_⟩
    · rw [h1]
      rfl
    · rw [h2]
      rfl
    · rw [h3]
      rfl

/-- C9 (confirmed): for every `max_pages ≤ 0` the loop body of
`get_all_realestates` never runs, the post-loop logging line reads the
then-unbound loop variables `page` and `estates`, and the call raises
NameError instead of returning (modelled by `none`). -/
theorem claim_C9 (fetch : Int → List Json) (max_pages : Int) (h : max_pages ≤ 0) :
    get_all_realestates fetch max_pages = none := by
  unfold get_all_realestates runAll
  rw [intRange_nil 1 (max_pages + 1) (by omega)]
  rfl

/-- Witness for C9: `max_pages = 0` raises. -/
theorem claim_C9_witness : get_all_realestates witFetchFull 0 = none :=
  claim_C9 witFetchFull 0 (by norm_num)

/-! ## Lemmas: decimal numerals round-trip -/

theorem digitChar_lt10 :
    ∀ m, m < 10 → isDigitCh (digitChar m) = true ∧ digitVal (digitChar m) = m ∧
      (digitChar m = '0' ↔ m = 0) := by decide

theorem ndAux_acc (f : Nat) : ∀ n acc, natDigitsAux f n acc = natDigitsAux f n [] ++ acc := by
  induction f with
  | zero => intro n acc; rfl
  | succ g ih =>
    intro n acc
    by_cases h : n < 10
    · simp [natDigitsAux, h]
    · simp only [natDigitsAux, h, if_false]
      rw [ih (n / 10) (digitChar (n % 10) :: acc), ih (n / 10) [digitChar (n % 10)]]
      simp

theorem ndAux_fuel (n : Nat) : ∀ f g, n < f → n < g →
    natDigitsAux f n [] = natDigitsAux g n [] := by
  induction n using Nat.strong_induction_on with
  | _ n ih =>
    intro f g hf hg
    cases f with
    | zero => omega
    | succ f' =>
      cases g with
      | zero => omega
      | succ g' =>
        by_cases h : n < 10
        · simp [natDigitsAux, h]
        · have hdiv : n / 10 < n := Nat.div_lt_self (by omega) (by omega)
          simp only [natDigitsAux, h, if_false]
          rw [ndAux_acc f' (n / 10) [digitChar (n % 10)],
            ndAux_acc g' (n / 10) [digitChar (n % 10)],
            ih (n / 10) hdiv f' g' (by omega) (by omega)]

theorem natDigits_lt10 (n : Nat) (h : n < 10) : natDigits n = [digitChar n] := by
  simp [natDigits, natDigitsAux, h]

theorem natDigits_ge10 (n : Nat) (h : 10 ≤ n) :
    natDigits n = natDigits (n / 10) ++ [digitChar (n % 10)] := by
  have hdiv : n / 10 < n := Nat.div_lt_self (by omega) (by omega)
  have h1 : natDigits n = natDigitsAux n (n / 10) [digitChar (n % 10)] := by
    simp [natDigits, natDigitsAux, show ¬n < 10 by omega]
  rw [h1, ndAux_acc n (n / 10) [digitChar (n % 10)]]
  unfold natDigits
  rw [ndAux_fuel (n / 10) n (n / 10 + 1) (by omega) (by omega)]

theorem natDigits_head (n : Nat) :
    ∃ c t, natDigits n = c :: t ∧ isDigitCh c = true ∧ (1 ≤ n → c ≠ '0') := by
  induction n using Nat.strong_induction_on with
  | _ n ih =>
    by_cases h : n < 10
    · refine ⟨digitChar n, [], natDigits_lt10 n h, (digitChar_lt10 n h).1, ?_⟩
      intro h1 hc
      have := (digitChar_lt10 n h).2.2.mp hc
      omega
    · have hdiv : n / 10 < n := Nat.div_lt_self (by omega) (by omega)
      obtain ⟨c, t, heq, hd, hz⟩ := ih (n / 10) hdiv
      refine ⟨c, t ++ [digitChar (n % 10)], ?_, hd, fun _ => hz (by omega)⟩
      rw [natDigits_ge10 n (by omega), heq]
      rfl

theorem natDigits_all_digits (n : Nat) : ∀ c ∈ natDigits n, isDigitCh c = true := by
  induction n using Nat.strong_induction_on with
  | _ n ih =>
    by_cases h : n < 10
    · rw [natDigits_lt10 n h]
      intro c hc
      rw [List.mem_singleton.mp hc]
      exact (digitChar_lt10 n h).1
    · have hdiv : n / 10 < n := Nat.div_lt_self (by omega) (by omega)
      rw [natDigits_ge10 n (by omega)]
      intro c hc
      rcases List.mem_append.mp hc with h1 | h1
      · exact ih (n / 10) hdiv c h1
      · rw [List.mem_singleton.mp h1]
        exact (digitChar_lt10 (n % 10) (by omega)).1

theorem natDigits_ne_nil (n : Nat) : natDigits n ≠ [] := by
  obtain ⟨c, t, heq, _, _⟩ := natDigits_head n
  rw [heq]
  simp

theorem digitLoop_append (ds : List Char) (rest : List Char)
    (h : ∀ c ∈ ds, isDigitCh c = true) : ∀ a,
    digitLoop (ds ++ rest) a = digitLoop rest (ds.foldl (fun x c => x * 10 + digitVal c) a) := by
  induction ds with
  | nil => intro a; rfl
  | cons c t ih =>
    intro a
    have hc : isDigitCh c = true := h c (List.mem_cons_self c t)
    simp only [List.cons_append, digitLoop, hc, if_true, List.foldl_cons]
    exact ih (fun x hx => h x (List.mem_cons_of_mem c hx)) (a * 10 + digitVal c)

theorem digitLoop_stop (rest : List Char) (a : Nat)
    (h : ∀ c t, rest = c :: t → isDigitCh c = false) : digitLoop rest a = (a, rest) := by
  cases rest with
  | nil => rfl
  | cons c t => simp [digitLoop, h c t rfl]

theorem natDigits_foldl (n : Nat) : ∀ a,
    (natDigits n).foldl (fun x c => x * 10 + digitVal c) a =
      a * 10 ^ (natDigits n).length + n := by
  induction n using Nat.strong_induction_on with
  | _ n ih =>
    intro a
    by_cases h : n < 10
    · rw [natDigits_lt10 n h]
      simp [(digitChar_lt10 n h).2.1]
    · have hdiv : n / 10 < n := Nat.div_lt_self (by omega) (by omega)
      rw [natDigits_ge10 n (by omega), List.foldl_append, ih (n / 10) hdiv a]
      simp only [List.foldl_cons, List.foldl_nil, List.length_append,
        List.length_singleton]
      rw [(digitChar_lt10 (n % 10) (by omega)).2.1, pow_succ]
      have hmod := Nat.div_add_mod n 10
      ring_nf
      omega

theorem pNat_natDigits (n : Nat) (rest : List Char)
    (hrest : ∀ c t, rest = c :: t → isDigitCh c = false) :
    pNat (natDigits n ++ rest) = some (n, rest) := by
  by_cases h0 : n = 0
  · subst h0
    rw [natDigits_lt10 0 (by omega)]
    rfl
  · obtain ⟨c, t, heq, hd, hz⟩ := natDigits_head n
    rw [heq]
    simp only [List.cons_append, pNat, hz (by omega), if_false, hd, if_true]
    have hall : ∀ x ∈ c :: t, isDigitCh x = true := by
      rw [← heq]
      exact natDigits_all_digits n
    have h1 : (c :: t) ++ rest = natDigits n ++ rest := by rw [heq]
    have h2 := digitLoop_append (c :: t) rest hall 0
    rw [List.cons_append] at h2
    rw [h2]
    have h3 : (c :: t).foldl (fun x c => x * 10 + digitVal c) 0 = n := by
      rw [← heq] at *
      rw [natDigits_foldl n 0]
      simp
    rw [h3, digitLoop_stop rest n hrest]

theorem serInt_num_safe (i : Int) (rest : List Char) (hrest : numSafe rest) :
    pNumber (serInt i ++ rest) = some (.num i, rest) := by
  have hfloat : floatNext rest = false := by
    cases rest with
    | nil => rfl
    | cons c t =>
      obtain ⟨_, h2, h3, h4⟩ := hrest
      simp [floatNext, h2, h3, h4]
  have hnod : ∀ c t, rest = c :: t → isDigitCh c = false := by
    intro c t hct
    rw [hct] at hrest
    exact hrest.1
  cases i with
  | ofNat n =>
    obtain ⟨c, t, heq, hd, _⟩ := natDigits_head n
    have hnm : c ≠ '-' := by
      intro hc
      rw [hc] at hd
      exact absurd hd (by decide)
    show pNumber (natDigits n ++ rest) = _
    rw [heq, List.cons_append]
    simp only [pNumber]
    rw [if_neg hnm, show c :: (t ++ rest) = (c :: t) ++ rest from rfl, ← heq,
      pNat_natDigits n rest hnod]
    simp [hfloat]
  | negSucc m =>
    show pNumber ('-' :: (natDigits (m + 1) ++ rest)) = _
    simp only [pNumber, if_true]
    rw [pNat_natDigits (m + 1) rest hnod]
    simp only [hfloat, Bool.false_eq_true, if_false, Option.some.injEq, Prod.mk.injEq]
    exact ⟨by congr 1, trivial⟩

/-! ## Lemmas: string literal round-trip -/

theorem hexDig_lt16 : ∀ m, m < 16 → hexVal (hexDig m) = some m := by decide

theorem pString_escBody (s : List Char) : ∀ rest : List Char,
    pString (escBody s ++ '"' :: rest) = some (s, rest) := by
  induction s with
  | nil =>
    intro rest
    unfold pString
    simp [escBody]
  | cons c t ih =>
    intro rest
    simp only [escBody, List.append_assoc]
    by_cases hq : c = '"'
    · subst hq
      rw [show escChar '"' = ['\\', '"'] from rfl]
      simp only [List.cons_append, List.nil_append]
      unfold pString
      simp [escOf, ih rest]
    · by_cases hb : c = '\\'
      · subst hb
        rw [show escChar '\\' = ['\\', '\\'] from rfl]
        simp only [List.cons_append, List.nil_append]
        unfold pString
        simp [escOf, ih rest]
      · by_cases hc : c.toNat < 32
        · have hesc : escChar c =
              ['\\', 'u', '0', '0', hexDig (c.toNat / 16), hexDig (c.toNat % 16)] := by
            simp [escChar, hq, hb, hc]
          rw [hesc]
          simp only [List.cons_append, List.nil_append]
          have e1 : hexVal (hexDig (c.toNat / 16)) = some (c.toNat / 16) :=
            hexDig_lt16 _ (by omega)
          have e2 : hexVal (hexDig (c.toNat % 16)) = some (c.toNat % 16) :=
            hexDig_lt16 _ (by omega)
          have hcp : ((0 * 16 + 0) * 16 + c.toNat / 16) * 16 + c.toNat % 16 = c.toNat := by
            omega
          have hcp2 : c.toNat / 16 * 16 + c.toNat % 16 = c.toNat := by omega
          have hsur : ¬(55296 ≤ ((0 * 16 + 0) * 16 + c.toNat / 16) * 16 + c.toNat % 16 ∧
              ((0 * 16 + 0) * 16 + c.toNat / 16) * 16 + c.toNat % 16 ≤ 57343) := by omega
          have hsur2 : ¬(55296 ≤ c.toNat ∧ c.toNat ≤ 57343) := by omega
          unfold pString
          simp [e1, e2, ih rest, hcp, hcp2, hsur, hsur2, Char.ofNat_toNat]
          rw [show hexVal '0' = some 0 from rfl]
          simp [hcp, hcp2, hsur, hsur2, Char.ofNat_toNat]
        · have hesc : escChar c = [c] := by simp [escChar, hq, hb, hc]
          rw [hesc]
          simp only [List.cons_append, List.nil_append]
          unfold pString
          simp [hq, hb, hc, ih rest]

/-! ## Lemmas: heads of serialized values, whitespace, insertion -/

theorem skipWs_cons (c : Char) (r : List Char) (h : isWsChar c = false) :
    skipWs (c :: r) = c :: r := by
  unfold skipWs
  rw [h]
  rfl

theorem digit_facts (c : Char) (h : isDigitCh c = true) :
    isWsChar c = false ∧ c ≠ '{' ∧ c ≠ '[' ∧ c ≠ '"' ∧ c ≠ 't' ∧ c ≠ 'f' ∧ c ≠ 'n' ∧
      c ≠ '-' ∧ c ≠ ']' ∧ c ≠ '}' := by
  simp only [isDigitCh, Bool.and_eq_true, decide_eq_true_eq] at h
  refine ⟨?_, ?_, ?_, ?_, ?_, ?_, ?_, ?_, ?_, ?_⟩
  · cases hw : isWsChar c with
    | false => rfl
    | true =>
      simp only [isWsChar, Bool.or_eq_true, decide_eq_true_eq] at hw
      rcases hw with ((rfl | rfl) | rfl) | rfl <;> exact absurd h.1 (by decide)
  · intro heq; rw [heq] at h; exact absurd h.2 (by decide)
  · intro heq; rw [heq] at h; exact absurd h.2 (by decide)
  · intro heq; rw [heq] at h; exact absurd h.1 (by decide)
  · intro heq; rw [heq] at h; exact absurd h.2 (by decide)
  · intro heq; rw [heq] at h; exact absurd h.2 (by decide)
  · intro heq; rw [heq] at h; exact absurd h.2 (by decide)
  · intro heq; rw [heq] at h; exact absurd h.1 (by decide)
  · intro heq; rw [heq] at h; exact absurd h.2 (by decide)
  · intro heq; rw [heq] at h; exact absurd h.2 (by decide)

theorem serInt_head (i : Int) :
    ∃ c t', serInt i = c :: t' ∧ isWsChar c = false ∧ c ≠ '{' ∧ c ≠ '[' ∧ c ≠ '"' ∧
      c ≠ 't' ∧ c ≠ 'f' ∧ c ≠ 'n' ∧ c ≠ ']' ∧ c ≠ '}' := by
  cases i with
  | ofNat n =>
    obtain ⟨c, t', heq, hd, _⟩ := natDigits_head n
    obtain ⟨f1, f2, f3, f4, f5, f6, f7, _, f9, f10⟩ := digit_facts c hd
    exact ⟨c, t', heq, f1, f2, f3, f4, f5, f6, f7, f9, f10⟩
  | negSucc m =>
    exact ⟨'-', natDigits (m + 1), rfl, by decide, by decide, by decide, by decide,
      by decide, by decide, by decide, by decide, by decide⟩

theorem serialize_head (v : Json) :
    ∃ c t', serializeJson v = c :: t' ∧ isWsChar c = false ∧ c ≠ ']' ∧ c ≠ '}' := by
  cases v with
  | null => exact ⟨'n', _, rfl, by decide, by decide, by decide⟩
  | bool b =>
    cases b
    · exact ⟨'f', _, rfl, by decide, by decide, by decide⟩
    · exact ⟨'t', _, rfl, by decide, by decide, by decide⟩
  | num i =>
    obtain ⟨c, t', heq, f1, _, _, _, _, _, _, f9, f10⟩ := serInt_head i
    exact ⟨c, t', heq, f1, f9, f10⟩
  | str s => exact ⟨'"', _, rfl, by decide, by decide, by decide⟩
  | arr xs => exact ⟨'[', _, rfl, by decide, by decide, by decide⟩
  | obj kvs => exact ⟨'{', _, rfl, by decide, by decide, by decide⟩

theorem serItems_head (x : Json) (t : List Json) :
    ∃ c tt, serItems (x :: t) = c :: tt ∧ isWsChar c = false ∧ c ≠ ']' := by
  obtain ⟨c, t', heq, hws, hb1, _⟩ := serialize_head x
  cases t with
  | nil => exact ⟨c, t', heq, hws, hb1⟩
  | cons y u =>
    refine ⟨c, t' ++ ',' :: serItems (y :: u), ?_, hws, hb1⟩
    show serializeJson x ++ ',' :: serItems (y :: u) = _
    rw [heq]
    rfl

theorem serMembers_head (kvs : List (List Char × Json)) (h : kvs ≠ []) :
    ∃ tt, serMembers kvs = '"' :: tt := by
  cases kvs with
  | nil => exact absurd rfl h
  | cons kv t =>
    obtain ⟨k, v⟩ := kv
    cases t with
    | nil => exact ⟨escBody k ++ '"' :: ':' :: serializeJson v, by simp [serMembers, serStr]⟩
    | cons m u =>
      exact ⟨escBody k ++ '"' :: ':' :: (serializeJson v ++ ',' :: serMembers (m :: u)),
        by simp [serMembers, serStr]⟩

theorem objInsert_fresh (acc : List (List Char × Json)) (k : List Char) (v : Json)
    (h : k ∉ acc.map Prod.fst) : objInsert acc k v = acc ++ [(k, v)] := by
  induction acc with
  | nil => rfl
  | cons kv t ih =>
    obtain ⟨k', v'⟩ := kv
    simp only [List.map_cons, List.mem_cons] at h
    push_neg at h
    simp only [objInsert, if_neg (fun hh : k' = k => h.1 hh.symm), List.cons_append]
    rw [ih h.2]

/-! ## Lemmas: parser round-trip over serialized values -/

mutual

theorem rt_value (v : Json) (hwf : wfJ v) : ∀ (f : Nat) (rest : List Char),
    (serializeJson v).length < f → numSafe rest →
    pValue f (serializeJson v ++ rest) = some (v, rest) := by
  cases v with
  | null =>
    intro f rest hf _
    cases f with
    | zero => exact absurd hf (by omega)
    | succ g =>
      show pValue (g + 1) (['n', 'u', 'l', 'l'] ++ rest) = some (.null, rest)
      unfold pValue
      simp [skipWs, isWsChar]
  | bool b =>
    intro f rest hf _
    cases f with
    | zero => exact absurd hf (by omega)
    | succ g =>
      cases b
      · show pValue (g + 1) (['f', 'a', 'l', 's', 'e'] ++ rest) = some (.bool false, rest)
        unfold pValue
        simp [skipWs, isWsChar]
      · show pValue (g + 1) (['t', 'r', 'u', 'e'] ++ rest) = some (.bool true, rest)
        unfold pValue
        simp [skipWs, isWsChar]
  | num i =>
    intro f rest hf hrest
    cases f with
    | zero => exact absurd hf (by omega)
    | succ g =>
      obtain ⟨c, t', heq, hws, h1, h2, h3, h4, h5, h6, _, _⟩ := serInt_head i
      show pValue (g + 1) (serInt i ++ rest) = some (.num i, rest)
      rw [heq, List.cons_append]
      unfold pValue
      simp only [skipWs_cons c (t' ++ rest) hws, if_neg h1, if_neg h2, if_neg h3,
        if_neg h4, if_neg h5, if_neg h6]
      rw [show c :: (t' ++ rest) = (c :: t') ++ rest from rfl, ← heq]
      exact serInt_num_safe i rest hrest
  | str s =>
    intro f rest hf _
    cases f with
    | zero => exact absurd hf (by omega)
    | succ g =>
      show pValue (g + 1) (serStr s ++ rest) = some (.str s, rest)
      rw [show serStr s ++ rest = '"' :: (escBody s ++ '"' :: rest) by simp [serStr]]
      unfold pValue
      simp [skipWs, isWsChar, pString_escBody s rest]
  | arr xs =>
    intro f rest hf _
    cases f with
    | zero => exact absurd hf (by omega)
    | succ g =>
      cases xs with
      | nil =>
        show pValue (g + 1) (['[', ']'] ++ rest) = some (.arr [], rest)
        unfold pValue
        simp [skipWs, isWsChar]
      | cons x t =>
        have hwf' : ∀ z ∈ x :: t, wfJ z := by
          simp only [wfJ] at hwf
          exact hwf
        obtain ⟨ch, tt, heq, hws, hnb⟩ := serItems_head x t
        have hlen : (serializeJson (.arr (x :: t))).length =
            (serItems (x :: t)).length + 2 := by
          simp [serializeJson]
        rw [hlen] at hf
        rw [show serializeJson (.arr (x :: t)) ++ rest =
          '[' :: (serItems (x :: t) ++ ']' :: rest) by simp [serializeJson]]
        unfold pValue
        rw [heq, List.cons_append]
        simp only [skipWs_cons '[' (ch :: (tt ++ ']' :: rest)) (by decide),
          skipWs_cons ch (tt ++ ']' :: rest) hws, if_neg hnb]
        rw [show ch :: (tt ++ ']' :: rest) = serItems (x :: t) ++ ']' :: rest from
          by rw [← List.cons_append, ← heq]]
        rw [rt_items (x :: t) (by simp) hwf' g [] rest (by omega)]
        simp
  | obj kvs =>
    intro f rest hf _
    cases f with
    | zero => exact absurd hf (by omega)
    | succ g =>
      cases kvs with
      | nil =>
        show pValue (g + 1) (['\x7b', '\x7d'] ++ rest) = some (.obj [], rest)
        unfold pValue
        simp [skipWs, isWsChar]
      | cons kv t =>
        have hwfm := hwf
        simp only [wfJ] at hwfm
        obtain ⟨hnd, hkv⟩ := hwfm
        have hwf' : ∀ z ∈ kv :: t, wfJ z.2 := fun z hz => (hkv z hz).2
        obtain ⟨tt, heq⟩ := serMembers_head (kv :: t) (by simp)
        have hlen : (serializeJson (.obj (kv :: t))).length =
            (serMembers (kv :: t)).length + 2 := by
          simp [serializeJson]
        rw [hlen] at hf
        rw [show serializeJson (.obj (kv :: t)) ++ rest =
          '{' :: (serMembers (kv :: t) ++ '}' :: rest) by simp [serializeJson]]
        unfold pValue
        rw [heq, List.cons_append]
        simp only [skipWs_cons '{' ('"' :: (tt ++ '}' :: rest)) (by decide),
          skipWs_cons '"' (tt ++ '}' :: rest) (by decide),
          if_neg (show ¬('"' = '}') by decide)]
        rw [show '"' :: (tt ++ '}' :: rest) = serMembers (kv :: t) ++ '}' :: rest from
          by rw [← List.cons_append, ← heq]]
        rw [rt_members (kv :: t) (by simp) hnd hwf' g [] rest (by omega) (by simp)]
        simp

theorem rt_items (xs : List Json) (hne : xs ≠ []) (hwf : ∀ x ∈ xs, wfJ x) :
    ∀ (f : Nat) (acc : List Json) (rest : List Char),
    (serItems xs).length + 1 < f →
    pItems f (serItems xs ++ ']' :: rest) acc = some (.arr (acc ++ xs), rest) := by
  cases xs with
  | nil => exact absurd rfl hne
  | cons x t =>
    intro f acc rest hf
    cases f with
    | zero => exact absurd hf (by omega)
    | succ g =>
      cases t with
      | nil =>
        have hx : wfJ x := hwf x (by simp)
        have hlen : (serItems [x]).length = (serializeJson x).length := by
          simp [serItems]
        rw [hlen] at hf
        show pItems (g + 1) (serItems [x] ++ ']' :: rest) acc = _
        rw [show serItems [x] = serializeJson x from by simp [serItems]]
        unfold pItems
        rw [rt_value x hx g (']' :: rest) (by omega)
          (⟨by decide, by decide, by decide, by decide⟩ : numSafe (']' :: rest))]
        simp [skipWs_cons ']' rest (by decide)]
      | cons y u =>
        have hx : wfJ x := hwf x (by simp)
        have hwf' : ∀ z ∈ y :: u, wfJ z := fun z hz => hwf z (by simp [hz])
        have hlen : (serItems (x :: y :: u)).length =
            (serializeJson x).length + 1 + (serItems (y :: u)).length := by
          simp [serItems]
          omega
        rw [hlen] at hf
        show pItems (g + 1) (serItems (x :: y :: u) ++ ']' :: rest) acc = _
        rw [show serItems (x :: y :: u) ++ ']' :: rest =
          serializeJson x ++ ',' :: (serItems (y :: u) ++ ']' :: rest) from
          by simp [serItems]]
        unfold pItems
        rw [rt_value x hx g (',' :: (serItems (y :: u) ++ ']' :: rest)) (by omega)
          (⟨by decide, by decide, by decide, by decide⟩ :
            numSafe (',' :: (serItems (y :: u) ++ ']' :: rest)))]
        simp only [skipWs_cons ',' (serItems (y :: u) ++ ']' :: rest) (by decide)]
        rw [show pItems g (serItems (y :: u) ++ ']' :: rest) (acc ++ [x]) =
              some (.arr ((acc ++ [x]) ++ (y :: u)), rest) from
            rt_items (y :: u) (by simp) hwf' g (acc ++ [x]) rest (by omega)]
        simp

theorem rt_members (kvs : List (List Char × Json)) (hne : kvs ≠ [])
    (hnd : (kvs.map Prod.fst).Nodup) (hwf : ∀ kv ∈ kvs, wfJ kv.2) :
    ∀ (f : Nat) (acc : List (List Char × Json)) (rest : List Char),
    (serMembers kvs).length + 1 < f →
    (∀ kv ∈ kvs, kv.1 ∉ acc.map Prod.fst) →
    pMembers f (serMembers kvs ++ '}' :: rest) acc = some (.obj (acc ++ kvs), rest) := by
  cases kvs with
  | nil => exact absurd rfl hne
  | cons kv t =>
    intro f acc rest hf hfresh
    cases f with
    | zero => exact absurd hf (by omega)
    | succ g =>
      obtain ⟨k, v⟩ := kv
      have hv : wfJ v := hwf (k, v) (by simp)
      cases t with
      | nil =>
        have hlen : (serMembers [(k, v)]).length =
            (escBody k).length + 3 + (serializeJson v).length := by
          simp [serMembers, serStr]
          omega
        rw [hlen] at hf
        rw [show serMembers [(k, v)] ++ '}' :: rest =
          '"' :: (escBody k ++ '"' :: (':' :: (serializeJson v ++ '}' :: rest))) from
          by simp [serMembers, serStr]]
        unfold pMembers
        simp only [pString_escBody k (':' :: (serializeJson v ++ '}' :: rest)),
          skipWs_cons ':' (serializeJson v ++ '}' :: rest) (by decide)]
        rw [rt_value v hv g ('}' :: rest) (by omega)
          (⟨by decide, by decide, by decide, by decide⟩ : numSafe ('}' :: rest))]
        simp only [skipWs_cons '}' rest (by decide)]
        rw [objInsert_fresh acc k v (hfresh (k, v) (by simp))]
        simp
      | cons m u =>
        have hnd' := hnd
        rw [List.map_cons, List.nodup_cons] at hnd'
        have hndt : ((m :: u).map Prod.fst).Nodup := hnd'.2
        have hkt : k ∉ (m :: u).map Prod.fst := hnd'.1
        have hwf' : ∀ z ∈ m :: u, wfJ z.2 := fun z hz => hwf z (by simp [hz])
        have hlen : (serMembers ((k, v) :: m :: u)).length =
            (escBody k).length + 3 + (serializeJson v).length + 1 +
              (serMembers (m :: u)).length := by
          simp [serMembers, serStr]
          omega
        rw [hlen] at hf
        rw [show serMembers ((k, v) :: m :: u) ++ '}' :: rest =
          '"' :: (escBody k ++ '"' ::
            (':' :: (serializeJson v ++
              ',' :: (serMembers (m :: u) ++ '}' :: rest)))) from
          by simp [serMembers, serStr]]
        unfold pMembers
        simp only [pString_escBody k
            (':' :: (serializeJson v ++ ',' :: (serMembers (m :: u) ++ '}' :: rest))),
          skipWs_cons ':'
            (serializeJson v ++ ',' :: (serMembers (m :: u) ++ '}' :: rest)) (by decide)]
        rw [rt_value v hv g (',' :: (serMembers (m :: u) ++ '}' :: rest)) (by omega)
          (⟨by decide, by decide, by decide, by decide⟩ :
            numSafe (',' :: (serMembers (m :: u) ++ '}' :: rest)))]
        simp only [skipWs_cons ',' (serMembers (m :: u) ++ '}' :: rest) (by decide)]
        obtain ⟨mtt, hmeq⟩ := serMembers_head (m :: u) (by simp)
        rw [hmeq, List.cons_append, skipWs_cons '"' (mtt ++ '}' :: rest) (by decide),
          ← List.cons_append, ← hmeq]
        have hfresh' : ∀ z ∈ m :: u, z.1 ∉ (objInsert acc k v).map Prod.fst := by
          intro z hz
          rw [objInsert_fresh acc k v (hfresh (k, v) (by simp))]
          simp only [List.map_append, List.map_cons, List.map_nil, List.mem_append,
            List.mem_singleton]
          push_neg
          refine ⟨fun hmem => hfresh z (by simp [hz]) hmem, ?_⟩
          intro hzk
          exact hkt (hzk ▸ List.mem_map_of_mem Prod.fst hz)
        rw [show pMembers g (serMembers (m :: u) ++ '}' :: rest) (objInsert acc k v) =
              some (.obj ((objInsert acc k v) ++ (m :: u)), rest) from
            rt_members (m :: u) (by simp) hndt hwf' g (objInsert acc k v) rest
              (by omega) hfresh']
        rw [objInsert_fresh acc k v (hfresh (k, v) (by simp))]
        simp

end

theorem json_loads_serialize (kvs : List (List Char × Json)) (hwf : wfJ (.obj kvs)) :
    json_loads (serializeJson (.obj kvs)) = some (.obj kvs) := by
  unfold json_loads
  have h := rt_value (.obj kvs) hwf ((serializeJson (.obj kvs)).length + 1) []
    (by omega) trivial
  rw [List.append_nil] at h
  rw [h]
  rfl

/-! ## Lemmas: the brace-depth scan over serialized payloads -/

theorem scanEnd_other (c : Char) (cs : List Char) (d : Nat) (h1 : c ≠ '{')
    (h2 : c ≠ '}') : scanEnd (c :: cs) d = (scanEnd cs d).map (fun n => n + 1) := by
  simp only [scanEnd]
  rw [if_neg h1, if_neg h2]

theorem scanEnd_open (cs : List Char) (d : Nat) :
    scanEnd ('{' :: cs) d = (scanEnd cs (d + 1)).map (fun n => n + 1) := by
  simp only [scanEnd, if_true]

theorem scanEnd_close (cs : List Char) (d : Nat) (h : ¬d = 1) :
    scanEnd ('}' :: cs) d = (scanEnd cs (d - 1)).map (fun n => n + 1) := by
  simp only [scanEnd, if_true]
  rw [if_neg h, if_neg (show ¬('}' = '{') by decide)]

theorem scanEnd_close_one (cs : List Char) : scanEnd ('}' :: cs) 1 = some 0 := by
  simp only [scanEnd, if_true]
  rw [if_neg (show ¬('}' = '{') by decide)]

theorem scanEnd_chunk (u : List Char) (hu : ∀ c ∈ u, c ≠ '{' ∧ c ≠ '}') :
    ∀ (rest : List Char) (d : Nat),
    scanEnd (u ++ rest) d = (scanEnd rest d).map (fun n => n + u.length) := by
  induction u with
  | nil =>
    intro rest d
    cases h : scanEnd rest d <;> simp [h]
  | cons c t ih =>
    intro rest d
    obtain ⟨h1, h2⟩ := hu c (by simp)
    have ih' := ih (fun x hx => hu x (by simp [hx])) rest d
    show scanEnd (c :: (t ++ rest)) d = _
    rw [scanEnd_other c (t ++ rest) d h1 h2, ih']
    cases h : scanEnd rest d <;> simp
    omega

theorem hexDig_bf : ∀ m, m < 16 → hexDig m ≠ '{' ∧ hexDig m ≠ '}' := by decide

theorem escChar_bf (c : Char) (hc : c ≠ '{' ∧ c ≠ '}') :
    ∀ x ∈ escChar c, x ≠ '{' ∧ x ≠ '}' := by
  intro x hx
  unfold escChar at hx
  by_cases h1 : c = '"'
  · simp [h1] at hx
    rcases hx with rfl | rfl <;> exact ⟨by decide, by decide⟩
  · by_cases h2 : c = '\\'
    · simp [h1, h2] at hx
      subst hx
      exact ⟨by decide, by decide⟩
    · by_cases h3 : c.toNat < 32
      · rw [if_neg h1, if_neg h2, if_pos h3] at hx
        simp only [List.mem_cons, List.not_mem_nil, or_false] at hx
        rcases hx with rfl | rfl | rfl | rfl | rfl | rfl
        · exact ⟨by decide, by decide⟩
        · exact ⟨by decide, by decide⟩
        · exact ⟨by decide, by decide⟩
        · exact ⟨by decide, by decide⟩
        · exact hexDig_bf _ (by omega)
        · exact hexDig_bf _ (by omega)
      · rw [if_neg h1, if_neg h2, if_neg h3] at hx
        simp only [List.mem_singleton] at hx
        subst hx
        exact hc

theorem escBody_bf (s : List Char) (h : braceFreeS s = true) :
    ∀ c ∈ escBody s, c ≠ '{' ∧ c ≠ '}' := by
  induction s with
  | nil => simp [escBody]
  | cons c t ih =>
    simp only [braceFreeS, List.all_cons, Bool.and_eq_true] at h
    have hc : c ≠ '{' ∧ c ≠ '}' := by
      have h1 := h.1
      constructor <;> intro heq <;> rw [heq] at h1 <;> simp at h1
    intro x hx
    simp only [escBody, List.mem_append] at hx
    rcases hx with hx | hx
    · exact escChar_bf c hc x hx
    · exact ih h.2 x hx

theorem serStr_bf (k : List Char) (h : braceFreeS k = true) :
    ∀ c ∈ serStr k, c ≠ '{' ∧ c ≠ '}' := by
  intro c hc
  simp only [serStr, List.mem_cons, List.mem_append, List.mem_singleton] at hc
  rcases hc with (rfl | hc) | (rfl | hc)
  · exact ⟨by decide, by decide⟩
  · exact escBody_bf k h c hc
  · exact ⟨by decide, by decide⟩
  · exact absurd hc (by simp)

theorem serInt_bf (i : Int) : ∀ c ∈ serInt i, c ≠ '{' ∧ c ≠ '}' := by
  cases i with
  | ofNat n =>
    intro c hc
    have hd := natDigits_all_digits n c hc
    obtain ⟨_, f2, _, _, _, _, _, _, _, f10⟩ := digit_facts c hd
    exact ⟨f2, f10⟩
  | negSucc m =>
    intro c hc
    rcases List.mem_cons.mp hc with rfl | hc
    · exact ⟨by decide, by decide⟩
    · have hd := natDigits_all_digits (m + 1) c hc
      obtain ⟨_, f2, _, _, _, _, _, _, _, f10⟩ := digit_facts c hd
      exact ⟨f2, f10⟩

mutual

theorem scan_val (v : Json) (hwf : wfJ v) : ∀ (rest : List Char) (d : Nat), 1 ≤ d →
    scanEnd (serializeJson v ++ rest) d =
      (scanEnd rest d).map (fun n => n + (serializeJson v).length) := by
  cases v with
  | null => intro rest d _; exact scanEnd_chunk ['n', 'u', 'l', 'l'] (by decide) rest d
  | bool b =>
    intro rest d _
    cases b
    · exact scanEnd_chunk ['f', 'a', 'l', 's', 'e'] (by decide) rest d
    · exact scanEnd_chunk ['t', 'r', 'u', 'e'] (by decide) rest d
  | num i => intro rest d _; exact scanEnd_chunk (serInt i) (serInt_bf i) rest d
  | str s =>
    intro rest d _
    simp only [wfJ] at hwf
    exact scanEnd_chunk (serStr s) (serStr_bf s hwf) rest d
  | arr xs =>
    intro rest d hd
    simp only [wfJ] at hwf
    have hlen : (serializeJson (.arr xs)).length = (serItems xs).length + 2 := by
      simp [serializeJson]
    rw [show serializeJson (.arr xs) ++ rest = '[' :: (serItems xs ++ ']' :: rest) from
      by simp [serializeJson]]
    rw [scanEnd_other '[' _ d (by decide) (by decide),
      scan_items xs hwf (']' :: rest) d hd,
      scanEnd_other ']' rest d (by decide) (by decide), hlen]
    cases h : scanEnd rest d <;> simp
    omega
  | obj kvs =>
    intro rest d hd
    simp only [wfJ] at hwf
    have hlen : (serializeJson (.obj kvs)).length = (serMembers kvs).length + 2 := by
      simp [serializeJson]
    rw [show serializeJson (.obj kvs) ++ rest = '{' :: (serMembers kvs ++ '}' :: rest) from
      by simp [serializeJson]]
    rw [scanEnd_open _ d, scan_members kvs hwf.2 ('}' :: rest) (d + 1) (by omega),
      scanEnd_close rest (d + 1) (by omega), hlen]
    have hd1 : d + 1 - 1 = d := by omega
    rw [hd1]
    cases h : scanEnd rest d <;> simp
    omega

theorem scan_items (xs : List Json) (hwf : ∀ x ∈ xs, wfJ x) :
    ∀ (rest : List Char) (d : Nat), 1 ≤ d →
    scanEnd (serItems xs ++ rest) d =
      (scanEnd rest d).map (fun n => n + (serItems xs).length) := by
  cases xs with
  | nil =>
    intro rest d _
    show scanEnd rest d = _
    cases h : scanEnd rest d <;> simp [serItems, h]
  | cons x t =>
    intro rest d hd
    cases t with
    | nil =>
      rw [show serItems [x] = serializeJson x from by simp [serItems]]
      exact scan_val x (hwf x (by simp)) rest d hd
    | cons y u =>
      have hlen : (serItems (x :: y :: u)).length =
          (serializeJson x).length + 1 + (serItems (y :: u)).length := by
        simp [serItems]
        omega
      rw [show serItems (x :: y :: u) ++ rest =
        serializeJson x ++ (',' :: (serItems (y :: u) ++ rest)) from by simp [serItems]]
      rw [scan_val x (hwf x (by simp)) (',' :: (serItems (y :: u) ++ rest)) d hd]
      rw [scanEnd_other ',' _ d (by decide) (by decide),
        scan_items (y :: u) (fun z hz => hwf z (by simp [hz])) rest d hd, hlen]
      cases h : scanEnd rest d <;> simp
      omega

theorem scan_members (kvs : List (List Char × Json))
    (hwf : ∀ kv ∈ kvs, braceFreeS kv.1 = true ∧ wfJ kv.2) :
    ∀ (rest : List Char) (d : Nat), 1 ≤ d →
    scanEnd (serMembers kvs ++ rest) d =
      (scanEnd rest d).map (fun n => n + (serMembers kvs).length) := by
  cases kvs with
  | nil =>
    intro rest d _
    show scanEnd rest d = _
    cases h : scanEnd rest d <;> simp [serMembers, h]
  | cons kv t =>
    obtain ⟨k, v⟩ := kv
    intro rest d hd
    obtain ⟨hbk, hv⟩ := hwf (k, v) (by simp)
    cases t with
    | nil =>
      have hlen : (serMembers [(k, v)]).length =
          (serStr k).length + 1 + (serializeJson v).length := by
        simp [serMembers]
        omega
      rw [show serMembers [(k, v)] ++ rest =
        serStr k ++ (':' :: (serializeJson v ++ rest)) from by simp [serMembers]]
      rw [scanEnd_chunk (serStr k) (serStr_bf k hbk) (':' :: (serializeJson v ++ rest)) d]
      rw [scanEnd_other ':' _ d (by decide) (by decide), scan_val v hv rest d hd, hlen]
      cases h : scanEnd rest d <;> simp
      omega
    | cons m u =>
      have hlen : (serMembers ((k, v) :: m :: u)).length =
          (serStr k).length + 1 + (serializeJson v).length + 1 +
            (serMembers (m :: u)).length := by
        simp [serMembers]
        omega
      rw [show serMembers ((k, v) :: m :: u) ++ rest =
        serStr k ++ (':' :: (serializeJson v ++
          (',' :: (serMembers (m :: u) ++ rest)))) from by simp [serMembers]]
      rw [scanEnd_chunk (serStr k) (serStr_bf k hbk) _ d]
      rw [scanEnd_other ':' _ d (by decide) (by decide), scan_val v hv _ d hd,
        scanEnd_other ',' _ d (by decide) (by decide),
        scan_members (m :: u) (fun z hz => hwf z (by simp [hz])) rest d hd, hlen]
      cases h : scanEnd rest d <;> simp
      omega

end

/-! ## Lemmas: list slicing -/

theorem drop_append_len {α : Type} (xs ys : List α) (m : Nat) :
    (xs ++ ys).drop (xs.length + m) = ys.drop m := by
  induction xs with
  | nil => simp
  | cons x t ih =>
    simp only [List.cons_append, List.length_cons]
    rw [show t.length + 1 + m = (t.length + m) + 1 from by omega, List.drop_succ_cons, ih]

theorem take_append_len {α : Type} (xs ys : List α) (m : Nat) :
    (xs ++ ys).take (xs.length + m) = xs ++ ys.take m := by
  induction xs with
  | nil => simp
  | cons x t ih =>
    simp only [List.cons_append, List.length_cons]
    rw [show t.length + 1 + m = (t.length + m) + 1 from by omega, List.take_succ_cons, ih]

/-! ## Claim theorems: the round trip (C1) -/

/-- C1, counterexample to the claim as stated: with "arbitrary noise", the
noise before the payload may itself contain the marker.  Here the noise
before is the marker followed by `}`, so `str.find` locks onto the noise,
the brace scan closes immediately, and the extractor parses the empty
object `\x7b\x7d` — returning `[]` instead of the payload's `realEstates`
list `[5]`. -/
theorem claim_C1_counterexample :
    dictGet cexKvs reName = some (.arr [.num 5]) ∧
    extract_realestates cexC1Text = .arr [] ∧
    extract_realestates cexC1Text ≠ .arr [.num 5] := by
  refine ⟨rfl, rfl, ?_⟩
  intro h
  have h3 : Json.arr [] = Json.arr [.num 5] :=
    Eq.trans (Eq.symm (by rfl : extract_realestates cexC1Text = Json.arr [])) h
  have h4 := congrArg (fun j => match j with | Json.arr xs => xs.length | _ => 0) h3
  simp at h4

/-- C1 (amended): embed the compact serialization of a payload object into
page text as `"realEstatesData":` + serialization, with noise before and
after.  Provided that (i) the payload object is well formed — duplicate-free
keys and no brace character inside any string key or value (the spec's own
payload-format assumption for the string-blind brace scan) — (ii) the
noise before contains no earlier occurrence of the marker (the marker's
first occurrence is at the payload), and (iii) the object has a list field
`realEstates`, the extractor returns exactly that list, element for
element. -/
theorem claim_C1 (nb na : List Char) (kvs : List (List Char × Json)) (l : List Json)
    (hwf : wfJ (.obj kvs))
    (hfind : findSubstr rdKey (embedPayload nb kvs na) = some nb.length)
    (hre : dictGet kvs reName = some (.arr l)) :
    extract_realestates (embedPayload nb kvs na) = .arr l := by
  have hser : serializeJson (.obj kvs) = '{' :: serMembers kvs ++ ['}'] := by
    simp [serializeJson]
  have htext : embedPayload nb kvs na =
      nb ++ (rdPre ++ ('{' :: (serMembers kvs ++ '}' :: na))) := by
    unfold embedPayload
    rw [hser]
    simp
  have hdrop19 : (embedPayload nb kvs na).drop (nb.length + 19) =
      serMembers kvs ++ '}' :: na := by
    rw [htext, drop_append_len nb _ 19,
      show (19 : Nat) = rdPre.length + 1 from rfl, drop_append_len rdPre _ 1]
    rfl
  have hwfm := hwf
  simp only [wfJ] at hwfm
  have hscan : scanEnd ((embedPayload nb kvs na).drop (nb.length + 19)) 1 =
      some (serMembers kvs).length := by
    rw [hdrop19, scan_members kvs hwfm.2 ('}' :: na) 1 le_rfl, scanEnd_close_one na]
    simp
  have hdrop18 : (embedPayload nb kvs na).drop (nb.length + 18) =
      '{' :: (serMembers kvs ++ '}' :: na) := by
    rw [htext, drop_append_len nb _ 18,
      show (18 : Nat) = rdPre.length + 0 from rfl, drop_append_len rdPre _ 0]
    rfl
  have hblock : ((embedPayload nb kvs na).drop (nb.length + 18)).take
      ((serMembers kvs).length + 2) = serializeJson (.obj kvs) := by
    rw [hdrop18, hser,
      show (serMembers kvs).length + 2 = ((serMembers kvs).length + 1) + 1 from rfl,
      List.take_succ_cons,
      show (serMembers kvs).length + 1 = (serMembers kvs).length + 1 from rfl,
      take_append_len (serMembers kvs) ('}' :: na) 1]
    rfl
  unfold extract_realestates
  simp only [hfind, hscan, hblock, json_loads_serialize kvs hwf, hre, Option.getD_some]

/-- Witness for C1: noise `xy` before and `z\x7d` after the payload
`\x7b"realEstates":[\x7b"id":7\x7d]\x7d`; the extractor recovers the
one-record list. -/
theorem claim_C1_witness :
    extract_realestates witC1Text = .arr [.obj [("id".data, .num 7)]] := by
  have hwf : wfJ (.obj witKvs) := by
    simp only [witKvs, wfJ]
    refine ⟨by simp, ?_⟩
    intro kv hkv
    simp only [List.mem_singleton] at hkv
    subst hkv
    refine ⟨by decide, ?_⟩
    simp only [wfJ]
    intro x hx
    simp only [List.mem_singleton] at hx
    subst hx
    simp only [wfJ]
    refine ⟨by simp, ?_⟩
    intro kv2 hkv2
    simp only [List.mem_singleton] at hkv2
    subst hkv2
    exact ⟨by decide, by simp [wfJ]⟩
  exact claim_C1 ['x', 'y'] ['z', '}'] witKvs [.obj [("id".data, .num 7)]] hwf rfl rfl

end SelectumProperty
